import Mathlib

/-!
Verification development for the `bfc` Brainfuck compiler core
(`src/bfir.rs`, `src/execution.rs`, `src/main.rs`).

Shallow embedding conventions:
* A BF cell is an 8-bit machine integer; we represent it as a `Nat` and take
  `% 256` exactly where the Rust code performs wrapping arithmetic
  (signed/unsigned is a display choice only; `-1` is `255`).
* `Wrapping<i8>` / `u8` instruction payloads become `Nat` (value `0..255`),
  `isize` becomes `Int`, `usize` indices become `Nat`.
* `Vec<T>` becomes `List T`, `HashMap<isize, Cell>` becomes an association
  list `List (Int × Nat)`.
* Fallible behaviour (a Rust panic from an out-of-range index, or the
  missing `MultiplyMove` arm of the non-exhaustive `match` in
  `execute_inner`) is modelled by returning `none`.
* `&str` source text becomes `List Char` (Rust iterates `source.chars()`,
  i.e. Unicode scalar values, and indexes by character).
-/

namespace Bfc

/-- `Instruction` from `src/bfir.rs` lines 11-21.  Payloads: `Increment`
carries a `Cell` (8-bit, here a `Nat` in `0..255`), `PointerIncrement` an
`isize` (here `Int`), `Set` a `Cell`, `MultiplyMove` a map from `isize`
offsets to `Cell` multipliers (here an association list). -/
inductive Instruction where
  | Increment : Nat → Instruction
  | PointerIncrement : Int → Instruction
  | Read : Instruction
  | Write : Instruction
  | Loop : List Instruction → Instruction
  | Set : Nat → Instruction
  | MultiplyMove : List (Int × Nat) → Instruction
deriving Repr

/-- Total number of instruction nodes in a program, counting nested loop
bodies.  Used as a termination measure for the interpreter and as the
well-founded measure the spec cites for optimizer termination. -/
def countInstrs : List Instruction → Nat
  | [] => 0
  | Instruction.Loop body :: rest => 1 + countInstrs body + countInstrs rest
  | _ :: rest => 1 + countInstrs rest

/-- `ExecutionState` from `src/execution.rs` lines 9-15. -/
structure ExecutionState where
  instr_ptr : Nat
  cells : List Nat
  cell_ptr : Int
  outputs : List Nat
deriving Repr, DecidableEq

/-- `Outcome` from `src/execution.rs` lines 17-24.  `Completed` carries the
number of steps remaining at completion. -/
inductive Outcome where
  | Completed : Nat → Outcome
  | ReachedRuntimeValue : Outcome
  | RuntimeError : Outcome
  | OutOfSteps : Outcome
deriving Repr, DecidableEq

/-- Reading `state.cells[state.cell_ptr as usize]`.  Rust panics when the
index is out of range (a negative `cell_ptr` cast to `usize` wraps to a
value at least `2^63`, which always exceeds a `Vec` length); we model the
panic as `none`. -/
def cellGet (s : ExecutionState) : Option Nat :=
  if 0 ≤ s.cell_ptr ∧ s.cell_ptr < (s.cells.length : Int) then
    some (s.cells.getD s.cell_ptr.toNat 0)
  else none

/-- Writing `state.cells[state.cell_ptr as usize] = v` (bounds already
checked by the caller through `cellGet`). -/
def cellSet (s : ExecutionState) (v : Nat) : ExecutionState :=
  { s with cells := s.cells.set s.cell_ptr.toNat v }

/-- `execute_inner` from `src/execution.rs` lines 42-109.  The Rust `while`
loop becomes tail recursion; every iteration either returns or calls again
with `steps - 1`, matching the `steps_left -= 1` at line 101.

The Rust `match` at lines 49-99 has no arm for `MultiplyMove`
(non-exhaustive), so that case is `none`; likewise an out-of-range cell
access (a Rust panic) is `none`.

In the completed-loop-iteration branch the code continues with
`remaining - 1` steps; we write `min remaining steps - 1` so that the
termination measure is evident.  The clamp never changes the value:
`executeInner_remaining_le` below proves `remaining ≤ steps` whenever the
recursive call returns `Completed remaining`. -/
def executeInner (instrs : List Instruction) (state : ExecutionState) (steps : Nat) :
    Option (ExecutionState × Outcome) :=
  if h : state.instr_ptr < instrs.length ∧ 0 < steps then
    match hins : instrs.get ⟨state.instr_ptr, h.1⟩ with
    | Instruction.Increment amount =>
      match cellGet state with
      | none => none
      | some x =>
        executeInner instrs
          { cellSet state ((x + amount) % 256) with instr_ptr := state.instr_ptr + 1 }
          (steps - 1)
    | Instruction.Set amount =>
      match cellGet state with
      | none => none
      | some _ =>
        executeInner instrs
          { cellSet state amount with instr_ptr := state.instr_ptr + 1 } (steps - 1)
    | Instruction.PointerIncrement amount =>
      if state.cell_ptr + amount < 0 ∨ (state.cells.length : Int) ≤ state.cell_ptr + amount then
        some (state, Outcome.RuntimeError)
      else
        executeInner instrs
          { state with cell_ptr := state.cell_ptr + amount, instr_ptr := state.instr_ptr + 1 }
          (steps - 1)
    | Instruction.Write =>
      match cellGet state with
      | none => none
      | some x =>
        executeInner instrs
          { state with outputs := state.outputs ++ [x], instr_ptr := state.instr_ptr + 1 }
          (steps - 1)
    | Instruction.Read => some (state, Outcome.ReachedRuntimeValue)
    | Instruction.Loop body =>
      match cellGet state with
      | none => none
      | some x =>
        if x = 0 then
          executeInner instrs { state with instr_ptr := state.instr_ptr + 1 } (steps - 1)
        else
          match executeInner body { state with instr_ptr := 0 } steps with
          | none => none
          | some (stateAfter, Outcome.Completed remaining) =>
            executeInner instrs
              { state with cells := stateAfter.cells, outputs := stateAfter.outputs,
                           cell_ptr := stateAfter.cell_ptr }
              (min remaining steps - 1)
          | some (_, outcome) => some (state, outcome)
    | Instruction.MultiplyMove _ => none
  else if steps = 0 then some (state, Outcome.OutOfSteps)
  else some (state, Outcome.Completed steps)
termination_by steps + countInstrs instrs
decreasing_by
  all_goals
    first
    | omega
    | (have hcount : ∀ (l : List Instruction) (i : Nat) (hi : i < l.length)
           (b : List Instruction), l.get ⟨i, hi⟩ = Instruction.Loop b →
           countInstrs b < countInstrs l := by
         intro l
         induction l with
         | nil => intro i hi; simp at hi
         | cons hd tl ih =>
           intro i hi b hget
           cases i with
           | zero =>
             simp only [List.get] at hget
             subst hget
             simp [countInstrs]
             omega
           | succ n =>
             have := ih n (by simpa using hi) b (by simpa using hget)
             cases hd <;> simp [countInstrs] <;> omega
       have := hcount instrs state.instr_ptr h.1 body (by assumption)
       omega)

/-- Modelled from the spec: `bounds.rs` (`highest_cell_index`) is a file of
this repository that is not under `src/`; only its callers are
(`execution.rs` line 7/35, `main.rs` line 105).  Spec section 4.2: net
pointer displacement accumulates over `PointerIncrement(d)`; a `Loop`
contributes net displacement zero but its body can reach
`current offset + max reach inside body`; the running maximum is clamped at
zero from below.  `MultiplyMove` (spec section 3) touches the cells at
`pointer + offset` for each offset of its map, so those offsets are
candidates too.  Returns the maximum displacement reached, an `Int ≥ 0`. -/
def maxReach : List Instruction → Int
  | [] => 0
  | Instruction.PointerIncrement d :: rest => max 0 (d + maxReach rest)
  | Instruction.Loop body :: rest => max 0 (max (maxReach body) (maxReach rest))
  | Instruction.MultiplyMove pairs :: rest =>
    max (pairs.foldl (fun acc p => max acc p.1) 0) (maxReach rest)
  | _ :: rest => maxReach rest

/-- `highest_cell_index` as used by `execute`: a non-negative integer bound
on the highest reachable cell index (spec section 4.2). -/
def highestCellIndex (instrs : List Instruction) : Nat :=
  (maxReach instrs).toNat

/-- `execute` from `src/execution.rs` lines 34-40: run `execute_inner` on a
fresh state whose tape has `highest_cell_index + 1` zero cells. -/
def execute (instrs : List Instruction) (steps : Nat) : Option ExecutionState :=
  (executeInner instrs
      { instr_ptr := 0, cells := List.replicate (highestCellIndex instrs + 1) 0,
        cell_ptr := 0, outputs := [] } steps).map Prod.fst

/-! ### Parser (`src/bfir.rs`) -/

/-- One step of the nesting-depth counter of `find_close`
(`src/bfir.rs` lines 103-107): `[` increments, `]` decrements, everything
else is ignored. -/
def depthStep (c : Char) (d : Int) : Int :=
  if c = '[' then d + 1 else if c = ']' then d - 1 else d

/-- The depth counter after scanning a whole list of characters. -/
def depthAfter : List Char → Int → Int
  | [], d => d
  | c :: rest, d => depthAfter rest (depthStep c d)

/-- `true` when every `]` in the scan sees a positive depth (no bracket
closes more than was opened).  Together with `depthAfter _ _ = 0` this is
the usual notion of a balanced bracket sequence. -/
def prefixValid : List Char → Int → Bool
  | [], _ => true
  | c :: rest, d =>
    if c = ']' then decide (0 < d) && prefixValid rest (d - 1)
    else if c = '[' then prefixValid rest (d + 1)
    else prefixValid rest d

/-- Spec section 8: a source whose bracket sequence is balanced. -/
def balanced (s : List Char) : Bool :=
  prefixValid s 0 && decide (depthAfter s 0 = 0)

/-- Index (relative to the start of the scan) of the first character that
drives the depth counter negative — i.e. the first stray `]`. -/
def firstNeg : List Char → Int → Option Nat
  | [], _ => none
  | c :: rest, d =>
    if depthStep c d < 0 then some 0
    else (firstNeg rest (depthStep c d)).map (· + 1)

/-- The scanning loop of `find_close` (`src/bfir.rs` lines 98-112): walk the
characters keeping a depth counter, and return the (absolute) index of the
first position where the depth returns to zero. -/
def findCloseAux : List Char → Nat → Int → Option Nat
  | [], _, _ => none
  | c :: rest, idx, depth =>
    if depthStep c depth = 0 then some idx
    else findCloseAux rest (idx + 1) (depthStep c depth)

/-- `find_close` from `src/bfir.rs` lines 94-115: find the index of the `]`
matching the `[` at `openIndex`.  The Rust loop enumerates all characters
and skips those before `openIndex`, which is the same as scanning
`chars.drop openIndex` with the depth counter started at zero;
`none` models the `Err` return at line 114. -/
def findClose (chars : List Char) (openIndex : Nat) : Option Nat :=
  findCloseAux (chars.drop openIndex) openIndex 0

/-- `parse_between` from `src/bfir.rs` lines 58-91, specialised to a
character list.  `stop` is the exclusive end index, `index` the cursor.
The Rust `while` loop and the recursive call on a loop's interior both
become recursion here; `fuel` is a bound on the recursion depth (every
recursive call strictly increases `index` and is made only when `index <
chars.length`, so from the initial fuel `chars.length + 1` every call keeps
`chars.length + 1 ≤ index + fuel` and the `fuel = 0` arm is unreachable
from `parse`).  The guard
adds `index < chars.length`, which in Rust is the `assert!(end <=
chars.len())` at line 61 (always satisfied; `stop ≤ chars.length` holds at
every call). -/
def parseBetweenAux (chars : List Char) : Nat → Nat → Nat →
    Except String (List Instruction)
  | 0, _, _ => Except.error "unreachable: fuel exhausted"
  | fuel' + 1, stop, index =>
    if h : index < stop ∧ index < chars.length then
      let c := chars.get ⟨index, h.2⟩
      if c = '+' then
        (parseBetweenAux chars fuel' stop (index + 1)).map
          (fun rest => Instruction.Increment 1 :: rest)
      else if c = '-' then
        (parseBetweenAux chars fuel' stop (index + 1)).map
          (fun rest => Instruction.Increment 255 :: rest)
      else if c = '>' then
        (parseBetweenAux chars fuel' stop (index + 1)).map
          (fun rest => Instruction.PointerIncrement 1 :: rest)
      else if c = '<' then
        (parseBetweenAux chars fuel' stop (index + 1)).map
          (fun rest => Instruction.PointerIncrement (-1) :: rest)
      else if c = ',' then
        (parseBetweenAux chars fuel' stop (index + 1)).map
          (fun rest => Instruction.Read :: rest)
      else if c = '.' then
        (parseBetweenAux chars fuel' stop (index + 1)).map
          (fun rest => Instruction.Write :: rest)
      else if c = '[' then
        match findClose chars index with
        | none =>
          Except.error ("Could not find matching ] for [ at index " ++ toString index ++ ".")
        | some closeIndex =>
          match parseBetweenAux chars fuel' closeIndex (index + 1) with
          | Except.error e => Except.error e
          | Except.ok body =>
            match parseBetweenAux chars fuel' stop (closeIndex + 1) with
            | Except.error e => Except.error e
            | Except.ok rest => Except.ok (Instruction.Loop body :: rest)
      else if c = ']' then
        Except.error ("Unmatched ] at index " ++ toString index ++ ".")
      else
        parseBetweenAux chars fuel' stop (index + 1)
    else Except.ok []

/-- `parse` from `src/bfir.rs` lines 52-54:
`parse_between(source, 0, source.chars().count())`. -/
def parse (chars : List Char) : Except String (List Instruction) :=
  parseBetweenAux chars (chars.length + 1) chars.length 0

/-- The segment of the source from index `a` (inclusive) to `b`
(exclusive), as scanned by `parse_between`. -/
def seg (chars : List Char) (a b : Nat) : List Char :=
  (chars.drop a).take (b - a)

/-- `true` when the `[` at index `q` has no matching `]`: the scan of
`find_close` exhausts the source. -/
def isUnclosedOpen (chars : List Char) (q : Nat) : Bool :=
  (chars.getD q ' ' == '[') && (findClose chars q).isNone

/-- First unmatched-`[` candidate in a list of indices. -/
def firstUnclosedInList (chars : List Char) : List Nat → Option Nat
  | [] => none
  | q :: rest => if isUnclosedOpen chars q then some q else firstUnclosedInList chars rest

/-- Index of the first `[` at or after `i` whose forward depth-counting
scan exhausts the source — the `[` whose index `parse` reports when the
source has an unclosed bracket. -/
def firstUnclosedFrom (chars : List Char) (i : Nat) : Option Nat :=
  firstUnclosedInList chars (List.range' i (chars.length - i))

/-- `true` when a program contains no `Set` and no `MultiplyMove`,
recursively through loop bodies (spec section 3 invariants: "Parser output
never contains `Set` or `MultiplyMove`"). -/
def noOptInstrs : List Instruction → Bool
  | [] => true
  | Instruction.Set _ :: _ => false
  | Instruction.MultiplyMove _ :: _ => false
  | Instruction.Loop body :: rest => noOptInstrs body && noOptInstrs rest
  | _ :: rest => noOptInstrs rest

/-- `true` when a program contains no `MultiplyMove`, recursively through
loop bodies — exactly the programs on which the non-exhaustive `match` in
`execute_inner` cannot be reached. -/
def noMultiplyMove : List Instruction → Bool
  | [] => true
  | Instruction.MultiplyMove _ :: _ => false
  | Instruction.Loop body :: rest => noMultiplyMove body && noMultiplyMove rest
  | _ :: rest => noMultiplyMove rest

/-! ### Peephole optimizer (spec section 4.3; `peephole.rs` is not under `src/`) -/

mutual

/-- Structural equality of instructions, used for the optimizer's
fixed-point test ("until a pass produces a value structurally equal to its
input"). -/
def instrBEq : Instruction → Instruction → Bool
  | Instruction.Increment a, Instruction.Increment b => a == b
  | Instruction.PointerIncrement a, Instruction.PointerIncrement b => a == b
  | Instruction.Read, Instruction.Read => true
  | Instruction.Write, Instruction.Write => true
  | Instruction.Loop a, Instruction.Loop b => instrListBEq a b
  | Instruction.Set a, Instruction.Set b => a == b
  | Instruction.MultiplyMove a, Instruction.MultiplyMove b => a == b
  | _, _ => false

/-- Structural equality of instruction sequences. -/
def instrListBEq : List Instruction → List Instruction → Bool
  | [], [] => true
  | a :: as, b :: bs => instrBEq a b && instrListBEq as bs
  | _, _ => false

end

/-- Modelled from the spec: `peephole.rs` (`optimize`) is a file of this
repository that is not under `src/`; only its caller is (`main.rs` line
97).  Spec section 4.3, rules 1-4, applied in a single linear sweep:
adjacent `Increment`s combine (wrapping, dropped when the sum wraps to
zero); adjacent `PointerIncrement`s combine (dropped when the sum is zero);
`Set(v); Increment(d)` becomes `Set(v+d)` (wrapping); a `Set` immediately
followed by another `Set` or by `Read` is dead and discarded. -/
def combineSweep : List Instruction → List Instruction
  | Instruction.Increment a :: Instruction.Increment b :: rest =>
    if (a + b) % 256 = 0 then combineSweep rest
    else combineSweep (Instruction.Increment ((a + b) % 256) :: rest)
  | Instruction.PointerIncrement a :: Instruction.PointerIncrement b :: rest =>
    if a + b = 0 then combineSweep rest
    else combineSweep (Instruction.PointerIncrement (a + b) :: rest)
  | Instruction.Set v :: Instruction.Increment d :: rest =>
    combineSweep (Instruction.Set ((v + d) % 256) :: rest)
  | Instruction.Set _ :: Instruction.Set w :: rest =>
    combineSweep (Instruction.Set w :: rest)
  | Instruction.Set _ :: Instruction.Read :: rest =>
    combineSweep (Instruction.Read :: rest)
  | i :: rest => i :: combineSweep rest
  | [] => []
termination_by l => l.length
decreasing_by all_goals simp [List.length] <;> omega

/-- Accumulated delta recorded for an offset, if any. -/
def lookupDelta : List (Int × Nat) → Int → Option Nat
  | [], _ => none
  | p :: rest, off => if p.1 = off then some p.2 else lookupDelta rest off

/-- Add `d` (wrapping at 8 bits) to the delta accumulated at offset
`off`. -/
def addDelta : List (Int × Nat) → Int → Nat → List (Int × Nat)
  | [], off, d => [(off, d % 256)]
  | p :: rest, off, d =>
    if p.1 = off then (off, (p.2 + d) % 256) :: rest else p :: addDelta rest off d

/-- Modelled from the spec (section 4.3 rule 6): walk a loop body that must
be a straight-line sequence of `Increment`s and `PointerIncrement`s,
accumulating the current offset and the offset→delta map; `none` when any
other instruction occurs. -/
def mmScan : List Instruction → Int → List (Int × Nat) → Option (Int × List (Int × Nat))
  | [], cur, acc => some (cur, acc)
  | Instruction.Increment d :: rest, cur, acc => mmScan rest cur (addDelta acc cur d)
  | Instruction.PointerIncrement d :: rest, cur, acc => mmScan rest (cur + d) acc
  | _ :: _, _, _ => none

/-- Modelled from the spec (section 4.3 rule 6): the conditions for
multiply-move recognition — straight-line body, net pointer displacement
zero, accumulated delta at offset 0 exactly `-1` — and the resulting map
over the non-zero offsets touched. -/
def mmMap (body : List Instruction) : Option (List (Int × Nat)) :=
  match mmScan body 0 [] with
  | none => none
  | some (net, deltas) =>
    if net = 0 ∧ lookupDelta deltas 0 = some 255 then
      some (deltas.filter (fun p => decide (p.1 ≠ 0)))
    else none

/-- Modelled from the spec: rules 5-7 of section 4.3, a sweep threading the
"current cell known zero" flag of section 9.  A `Loop` seen while the cell
is known zero is removed (rule 7); `Loop([Increment(-1)])` and
`Loop([Increment(1)])` become `Set 0` (rule 5); a multiply-move loop
becomes `MultiplyMove` (rule 6).  The flag becomes known-zero after
`Set(0)`, `MultiplyMove`, a removed dead loop, and at the start (for the
top level); it is reset to unknown after `Increment`, `PointerIncrement`,
`Read` and a kept `Loop`; `Write` does not touch cells and leaves it. -/
def loopSweep : Bool → List Instruction → List Instruction
  | _, [] => []
  | knownZero, Instruction.Loop body :: rest =>
    if knownZero then loopSweep true rest
    else if instrListBEq body [Instruction.Increment 255] ||
        instrListBEq body [Instruction.Increment 1] then
      Instruction.Set 0 :: loopSweep true rest
    else
      match mmMap body with
      | some m => Instruction.MultiplyMove m :: loopSweep true rest
      | none => Instruction.Loop body :: loopSweep false rest
  | _, Instruction.Set v :: rest => Instruction.Set v :: loopSweep (v == 0) rest
  | _, Instruction.MultiplyMove m :: rest => Instruction.MultiplyMove m :: loopSweep true rest
  | knownZero, Instruction.Write :: rest => Instruction.Write :: loopSweep knownZero rest
  | _, i :: rest => i :: loopSweep false rest

/-- Modelled from the spec: all rules are applied inside loop bodies
recursively before being applied at the enclosing level (section 4.3); a
loop body starts with the cell not known zero (the loop runs only when it
is non-zero). -/
def recurseBodies : List Instruction → List Instruction
  | [] => []
  | Instruction.Loop body :: rest =>
    Instruction.Loop (loopSweep false (combineSweep (recurseBodies body))) :: recurseBodies rest
  | i :: rest => i :: recurseBodies rest

/-- Modelled from the spec: one full optimizer pass — bodies first, then
the local rules 1-4, then the loop-shaped rules 5-7 with the known-zero
flag (known-zero at the program's first instruction when
`startKnownZero`). -/
def passAt (startKnownZero : Bool) (l : List Instruction) : List Instruction :=
  loopSweep startKnownZero (combineSweep (recurseBodies l))

/-- Iterate the pass until it produces a value structurally equal to its
input.  `fuel` bounds the number of passes; since every changing pass
strictly decreases `countInstrs` (proved below), `countInstrs l + 1` passes
always reach the fixed point. -/
def optimizeIter : Nat → List Instruction → List Instruction
  | 0, l => l
  | fuel + 1, l =>
    let next := passAt true l
    if instrListBEq next l then l else optimizeIter fuel next

/-- Modelled from the spec: `optimize` runs the rewrite set repeatedly
until a pass produces a value structurally equal to its input (section
4.3). -/
def optimize (l : List Instruction) : List Instruction :=
  optimizeIter (countInstrs l + 1) l

end Bfc

namespace Bfc

/-! ### Step lemmas: one unfolding of `executeInner` per branch of the
Rust `match` (plus the two terminal returns at lines 104-108). -/

theorem exec_terminal {instrs : List Instruction} {state : ExecutionState} {steps : Nat}
    (h : ¬(state.instr_ptr < instrs.length ∧ 0 < steps)) :
    executeInner instrs state steps =
      if steps = 0 then some (state, Outcome.OutOfSteps)
      else some (state, Outcome.Completed steps) := by
  rw [executeInner.eq_def, dif_neg h]

theorem exec_increment_panic {instrs : List Instruction} {state : ExecutionState}
    {steps : Nat} {amount : Nat} (h1 : state.instr_ptr < instrs.length) (h2 : 0 < steps)
    (hins : instrs.get ⟨state.instr_ptr, h1⟩ = Instruction.Increment amount)
    (hc : cellGet state = none) :
    executeInner instrs state steps = none := by
  rw [executeInner.eq_def, dif_pos ⟨h1, h2⟩]
  split <;> simp_all

theorem exec_increment {instrs : List Instruction} {state : ExecutionState}
    {steps : Nat} {amount x : Nat} (h1 : state.instr_ptr < instrs.length) (h2 : 0 < steps)
    (hins : instrs.get ⟨state.instr_ptr, h1⟩ = Instruction.Increment amount)
    (hc : cellGet state = some x) :
    executeInner instrs state steps =
      executeInner instrs
        { cellSet state ((x + amount) % 256) with instr_ptr := state.instr_ptr + 1 }
        (steps - 1) := by
  rw [executeInner.eq_def, dif_pos ⟨h1, h2⟩]
  split <;> simp_all

theorem exec_set_panic {instrs : List Instruction} {state : ExecutionState}
    {steps : Nat} {amount : Nat} (h1 : state.instr_ptr < instrs.length) (h2 : 0 < steps)
    (hins : instrs.get ⟨state.instr_ptr, h1⟩ = Instruction.Set amount)
    (hc : cellGet state = none) :
    executeInner instrs state steps = none := by
  rw [executeInner.eq_def, dif_pos ⟨h1, h2⟩]
  split <;> simp_all

theorem exec_set {instrs : List Instruction} {state : ExecutionState}
    {steps : Nat} {amount x : Nat} (h1 : state.instr_ptr < instrs.length) (h2 : 0 < steps)
    (hins : instrs.get ⟨state.instr_ptr, h1⟩ = Instruction.Set amount)
    (hc : cellGet state = some x) :
    executeInner instrs state steps =
      executeInner instrs
        { cellSet state amount with instr_ptr := state.instr_ptr + 1 } (steps - 1) := by
  rw [executeInner.eq_def, dif_pos ⟨h1, h2⟩]
  split <;> simp_all

theorem exec_ptr_error {instrs : List Instruction} {state : ExecutionState}
    {steps : Nat} {amount : Int} (h1 : state.instr_ptr < instrs.length) (h2 : 0 < steps)
    (hins : instrs.get ⟨state.instr_ptr, h1⟩ = Instruction.PointerIncrement amount)
    (hrange : state.cell_ptr + amount < 0 ∨ (state.cells.length : Int) ≤ state.cell_ptr + amount) :
    executeInner instrs state steps = some (state, Outcome.RuntimeError) := by
  rw [executeInner.eq_def, dif_pos ⟨h1, h2⟩]
  split <;> simp_all
  omega

theorem exec_ptr {instrs : List Instruction} {state : ExecutionState}
    {steps : Nat} {amount : Int} (h1 : state.instr_ptr < instrs.length) (h2 : 0 < steps)
    (hins : instrs.get ⟨state.instr_ptr, h1⟩ = Instruction.PointerIncrement amount)
    (hrange : ¬(state.cell_ptr + amount < 0 ∨ (state.cells.length : Int) ≤ state.cell_ptr + amount)) :
    executeInner instrs state steps =
      executeInner instrs
        { state with cell_ptr := state.cell_ptr + amount, instr_ptr := state.instr_ptr + 1 }
        (steps - 1) := by
  rw [executeInner.eq_def, dif_pos ⟨h1, h2⟩]
  split <;> simp_all

theorem exec_write_panic {instrs : List Instruction} {state : ExecutionState}
    {steps : Nat} (h1 : state.instr_ptr < instrs.length) (h2 : 0 < steps)
    (hins : instrs.get ⟨state.instr_ptr, h1⟩ = Instruction.Write)
    (hc : cellGet state = none) :
    executeInner instrs state steps = none := by
  rw [executeInner.eq_def, dif_pos ⟨h1, h2⟩]
  split <;> simp_all

theorem exec_write {instrs : List Instruction} {state : ExecutionState}
    {steps : Nat} {x : Nat} (h1 : state.instr_ptr < instrs.length) (h2 : 0 < steps)
    (hins : instrs.get ⟨state.instr_ptr, h1⟩ = Instruction.Write)
    (hc : cellGet state = some x) :
    executeInner instrs state steps =
      executeInner instrs
        { state with outputs := state.outputs ++ [x], instr_ptr := state.instr_ptr + 1 }
        (steps - 1) := by
  rw [executeInner.eq_def, dif_pos ⟨h1, h2⟩]
  split <;> simp_all

theorem exec_read {instrs : List Instruction} {state : ExecutionState}
    {steps : Nat} (h1 : state.instr_ptr < instrs.length) (h2 : 0 < steps)
    (hins : instrs.get ⟨state.instr_ptr, h1⟩ = Instruction.Read) :
    executeInner instrs state steps = some (state, Outcome.ReachedRuntimeValue) := by
  rw [executeInner.eq_def, dif_pos ⟨h1, h2⟩]
  split <;> simp_all

theorem exec_loop_panic {instrs : List Instruction} {state : ExecutionState}
    {steps : Nat} {body : List Instruction} (h1 : state.instr_ptr < instrs.length)
    (h2 : 0 < steps)
    (hins : instrs.get ⟨state.instr_ptr, h1⟩ = Instruction.Loop body)
    (hc : cellGet state = none) :
    executeInner instrs state steps = none := by
  rw [executeInner.eq_def, dif_pos ⟨h1, h2⟩]
  split <;> simp_all

theorem exec_loop_zero {instrs : List Instruction} {state : ExecutionState}
    {steps : Nat} {body : List Instruction} (h1 : state.instr_ptr < instrs.length)
    (h2 : 0 < steps)
    (hins : instrs.get ⟨state.instr_ptr, h1⟩ = Instruction.Loop body)
    (hc : cellGet state = some 0) :
    executeInner instrs state steps =
      executeInner instrs { state with instr_ptr := state.instr_ptr + 1 } (steps - 1) := by
  rw [executeInner.eq_def, dif_pos ⟨h1, h2⟩]
  split <;> simp_all

theorem exec_loop_body_none {instrs : List Instruction} {state : ExecutionState}
    {steps : Nat} {body : List Instruction} {x : Nat} (h1 : state.instr_ptr < instrs.length)
    (h2 : 0 < steps)
    (hins : instrs.get ⟨state.instr_ptr, h1⟩ = Instruction.Loop body)
    (hc : cellGet state = some x) (hx : x ≠ 0)
    (hbody : executeInner body { state with instr_ptr := 0 } steps = none) :
    executeInner instrs state steps = none := by
  rw [executeInner.eq_def, dif_pos ⟨h1, h2⟩]
  split <;> simp_all

theorem exec_loop_completed {instrs : List Instruction} {state : ExecutionState}
    {steps : Nat} {body : List Instruction} {x : Nat} {stateAfter : ExecutionState}
    {remaining : Nat} (h1 : state.instr_ptr < instrs.length) (h2 : 0 < steps)
    (hins : instrs.get ⟨state.instr_ptr, h1⟩ = Instruction.Loop body)
    (hc : cellGet state = some x) (hx : x ≠ 0)
    (hbody : executeInner body { state with instr_ptr := 0 } steps =
      some (stateAfter, Outcome.Completed remaining)) :
    executeInner instrs state steps =
      executeInner instrs
        { state with cells := stateAfter.cells, outputs := stateAfter.outputs,
                     cell_ptr := stateAfter.cell_ptr }
        (min remaining steps - 1) := by
  rw [executeInner.eq_def, dif_pos ⟨h1, h2⟩]
  split <;> simp_all

theorem exec_loop_stop {instrs : List Instruction} {state : ExecutionState}
    {steps : Nat} {body : List Instruction} {x : Nat} {stateAfter : ExecutionState}
    {out : Outcome} (h1 : state.instr_ptr < instrs.length) (h2 : 0 < steps)
    (hins : instrs.get ⟨state.instr_ptr, h1⟩ = Instruction.Loop body)
    (hc : cellGet state = some x) (hx : x ≠ 0)
    (hbody : executeInner body { state with instr_ptr := 0 } steps = some (stateAfter, out))
    (hout : ∀ r, out ≠ Outcome.Completed r) :
    executeInner instrs state steps = some (state, out) := by
  rw [executeInner.eq_def, dif_pos ⟨h1, h2⟩]
  split <;> simp_all

theorem exec_mm {instrs : List Instruction} {state : ExecutionState}
    {steps : Nat} {pairs : List (Int × Nat)} (h1 : state.instr_ptr < instrs.length)
    (h2 : 0 < steps)
    (hins : instrs.get ⟨state.instr_ptr, h1⟩ = Instruction.MultiplyMove pairs) :
    executeInner instrs state steps = none := by
  rw [executeInner.eq_def, dif_pos ⟨h1, h2⟩]
  split <;> simp_all


/-- Invariant preservation for `executeInner`: the tape length is
preserved; `instr_ptr` stays within `0..=len(instrs)`; `cell_ptr` stays
within `0..=len(cells)` (and within `0..len(cells)` when it starts there);
a `Completed` outcome carries between 1 and `steps` remaining steps. -/
theorem executeInner_preserves (instrs : List Instruction) (state : ExecutionState)
    (steps : Nat) :
    ∀ s2 out, executeInner instrs state steps = some (s2, out) →
      s2.cells.length = state.cells.length ∧
      (state.instr_ptr ≤ instrs.length → s2.instr_ptr ≤ instrs.length) ∧
      (0 ≤ state.cell_ptr → state.cell_ptr ≤ (state.cells.length : Int) →
        0 ≤ s2.cell_ptr ∧ s2.cell_ptr ≤ (s2.cells.length : Int)) ∧
      (0 ≤ state.cell_ptr → state.cell_ptr < (state.cells.length : Int) →
        0 ≤ s2.cell_ptr ∧ s2.cell_ptr < (s2.cells.length : Int)) ∧
      (∀ r, out = Outcome.Completed r → 1 ≤ r ∧ r ≤ steps) := by
  induction instrs, state, steps using executeInner.induct with
  | case1 instrs state steps h amount hins hcell =>
    intro s2 out hrun
    rw [exec_increment_panic h.1 h.2 hins hcell] at hrun
    cases hrun
  | case2 instrs state steps h amount hins x hcell ih =>
    intro s2 out hrun
    rw [exec_increment h.1 h.2 hins hcell] at hrun
    obtain ⟨hlen, hip, hle, hlt, hrem⟩ := ih s2 out hrun
    refine ⟨by simpa [cellSet] using hlen, fun _ => hip (by simp [cellSet]; omega),
      fun a b => hle (by simpa [cellSet] using a) (by simpa [cellSet] using b),
      fun a b => hlt (by simpa [cellSet] using a) (by simpa [cellSet] using b),
      fun r hr => by have := hrem r hr; omega⟩
  | case3 instrs state steps h amount hins hcell =>
    intro s2 out hrun
    rw [exec_set_panic h.1 h.2 hins hcell] at hrun
    cases hrun
  | case4 instrs state steps h amount hins x hcell ih =>
    intro s2 out hrun
    rw [exec_set h.1 h.2 hins hcell] at hrun
    obtain ⟨hlen, hip, hle, hlt, hrem⟩ := ih s2 out hrun
    refine ⟨by simpa [cellSet] using hlen, fun _ => hip (by simp [cellSet]; omega),
      fun a b => hle (by simpa [cellSet] using a) (by simpa [cellSet] using b),
      fun a b => hlt (by simpa [cellSet] using a) (by simpa [cellSet] using b),
      fun r hr => by have := hrem r hr; omega⟩
  | case5 instrs state steps h amount hins hrange =>
    intro s2 out hrun
    rw [exec_ptr_error h.1 h.2 hins hrange] at hrun
    simp only [Option.some.injEq, Prod.mk.injEq] at hrun
    obtain ⟨hs, ho⟩ := hrun
    subst hs; subst ho
    exact ⟨rfl, fun a => a, fun a b => ⟨a, b⟩, fun a b => ⟨a, b⟩, fun r hr => by cases hr⟩
  | case6 instrs state steps h amount hins hrange ih =>
    intro s2 out hrun
    rw [exec_ptr h.1 h.2 hins hrange] at hrun
    obtain ⟨hlen, hip, hle, hlt, hrem⟩ := ih s2 out hrun
    push_neg at hrange
    refine ⟨hlen, fun _ => hip (by simp; omega),
      fun a b => hle (by simp; omega) (by simp; omega),
      fun a b => hlt (by simp; omega) (by simp; omega),
      fun r hr => by have := hrem r hr; omega⟩
  | case7 instrs state steps h hins hcell =>
    intro s2 out hrun
    rw [exec_write_panic h.1 h.2 hins hcell] at hrun
    cases hrun
  | case8 instrs state steps h hins x hcell ih =>
    intro s2 out hrun
    rw [exec_write h.1 h.2 hins hcell] at hrun
    obtain ⟨hlen, hip, hle, hlt, hrem⟩ := ih s2 out hrun
    refine ⟨hlen, fun _ => hip (by simp; omega),
      fun a b => hle (by simpa using a) (by simpa using b),
      fun a b => hlt (by simpa using a) (by simpa using b),
      fun r hr => by have := hrem r hr; omega⟩
  | case9 instrs state steps h hins =>
    intro s2 out hrun
    rw [exec_read h.1 h.2 hins] at hrun
    simp only [Option.some.injEq, Prod.mk.injEq] at hrun
    obtain ⟨hs, ho⟩ := hrun
    subst hs; subst ho
    exact ⟨rfl, fun a => a, fun a b => ⟨a, b⟩, fun a b => ⟨a, b⟩, fun r hr => by cases hr⟩
  | case10 instrs state steps h body hins hcell =>
    intro s2 out hrun
    rw [exec_loop_panic h.1 h.2 hins hcell] at hrun
    cases hrun
  | case11 instrs state steps h body hins hcell ih =>
    intro s2 out hrun
    rw [exec_loop_zero h.1 h.2 hins hcell] at hrun
    obtain ⟨hlen, hip, hle, hlt, hrem⟩ := ih s2 out hrun
    refine ⟨hlen, fun _ => hip (by simp; omega),
      fun a b => hle (by simpa using a) (by simpa using b),
      fun a b => hlt (by simpa using a) (by simpa using b),
      fun r hr => by have := hrem r hr; omega⟩
  | case12 instrs state steps h body hins x hcell hx hbody ihb =>
    intro s2 out hrun
    rw [exec_loop_body_none h.1 h.2 hins hcell hx hbody] at hrun
    cases hrun
  | case13 instrs state steps h body hins x hcell hx stateAfter remaining hbody ihb ih =>
    intro s2 out hrun
    rw [exec_loop_completed h.1 h.2 hins hcell hx hbody] at hrun
    obtain ⟨hlenb, hipb, hleb, hltb, hremb⟩ :=
      ihb stateAfter (Outcome.Completed remaining) hbody
    obtain ⟨hlen, hip, hle, hlt, hrem⟩ := ih s2 out hrun
    have hrb := hremb remaining rfl
    simp only at hlenb hleb hltb hlen hip hle hlt
    refine ⟨by omega, fun a => hip (by simpa using a), ?_, ?_, ?_⟩
    · intro a b
      have hb := hleb a b
      exact hle hb.1 (by rw [show ({ instr_ptr := state.instr_ptr, cells := stateAfter.cells, cell_ptr := stateAfter.cell_ptr, outputs := stateAfter.outputs } : ExecutionState).cells = stateAfter.cells from rfl]; exact hb.2)
    · intro a b
      have hb := hltb a b
      exact hlt hb.1 hb.2
    · intro r hr
      have := hrem r hr
      omega
  | case14 instrs state steps h body hins x hcell hx stateAfter outcome hne hbody ihb =>
    intro s2 out hrun
    rw [exec_loop_stop h.1 h.2 hins hcell hx hbody (fun r hr => hne r hr)] at hrun
    simp only [Option.some.injEq, Prod.mk.injEq] at hrun
    obtain ⟨hs, ho⟩ := hrun
    subst hs; subst ho
    exact ⟨rfl, fun a => a, fun a b => ⟨a, b⟩, fun a b => ⟨a, b⟩,
      fun r hr => absurd hr (hne r)⟩
  | case15 instrs state steps h pairs hins =>
    intro s2 out hrun
    rw [exec_mm h.1 h.2 hins] at hrun
    cases hrun
  | case16 instrs state h =>
    intro s2 out hrun
    rw [exec_terminal h, if_pos rfl] at hrun
    simp only [Option.some.injEq, Prod.mk.injEq] at hrun
    obtain ⟨hs, ho⟩ := hrun
    subst hs; subst ho
    exact ⟨rfl, fun a => a, fun a b => ⟨a, b⟩, fun a b => ⟨a, b⟩, fun r hr => by cases hr⟩
  | case17 instrs state steps h hz =>
    intro s2 out hrun
    rw [exec_terminal h, if_neg hz] at hrun
    simp only [Option.some.injEq, Prod.mk.injEq] at hrun
    obtain ⟨hs, ho⟩ := hrun
    subst hs; subst ho
    refine ⟨rfl, fun a => a, fun a b => ⟨a, b⟩, fun a b => ⟨a, b⟩, fun r hr => ?_⟩
    cases hr
    omega


/-- `cellGet` succeeds when the pointer invariant holds. -/
theorem cellGet_some {s : ExecutionState} (h0 : 0 ≤ s.cell_ptr)
    (h1 : s.cell_ptr < (s.cells.length : Int)) :
    cellGet s = some (s.cells.getD s.cell_ptr.toNat 0) := by
  simp [cellGet, h0, h1]

/-- Indexing into a `MultiplyMove`-free program: the instruction found is
never `MultiplyMove`, and a `Loop` body found is itself
`MultiplyMove`-free. -/
theorem noMultiplyMove_get {l : List Instruction} (hnm : noMultiplyMove l = true) :
    ∀ (i : Nat) (h : i < l.length),
      (∀ pairs, l.get ⟨i, h⟩ ≠ Instruction.MultiplyMove pairs) ∧
      (∀ body, l.get ⟨i, h⟩ = Instruction.Loop body → noMultiplyMove body = true) := by
  induction l with
  | nil => intro i h; simp at h
  | cons hd tl ih =>
    intro i h
    cases i with
    | zero =>
      cases hd <;> simp_all [noMultiplyMove]
    | succ n =>
      have htl : noMultiplyMove tl = true := by
        cases hd <;> simp_all [noMultiplyMove]
      exact ih htl n (by simpa using h)

/-- On a `MultiplyMove`-free program, `executeInner` always returns a
result when the cell-pointer invariant holds at entry: the missing match
arm is unreachable and no tape access is out of range. -/
theorem executeInner_isSome (instrs : List Instruction) (state : ExecutionState)
    (steps : Nat) :
    noMultiplyMove instrs = true → 0 ≤ state.cell_ptr →
    state.cell_ptr < (state.cells.length : Int) →
    (executeInner instrs state steps).isSome := by
  induction instrs, state, steps using executeInner.induct with
  | case1 instrs state steps h amount hins hcell =>
    intro _ h0 h1
    rw [cellGet_some h0 h1] at hcell
    cases hcell
  | case2 instrs state steps h amount hins x hcell ih =>
    intro hnm h0 h1
    rw [exec_increment h.1 h.2 hins hcell]
    exact ih hnm (by simpa [cellSet] using h0) (by simpa [cellSet] using h1)
  | case3 instrs state steps h amount hins hcell =>
    intro _ h0 h1
    rw [cellGet_some h0 h1] at hcell
    cases hcell
  | case4 instrs state steps h amount hins x hcell ih =>
    intro hnm h0 h1
    rw [exec_set h.1 h.2 hins hcell]
    exact ih hnm (by simpa [cellSet] using h0) (by simpa [cellSet] using h1)
  | case5 instrs state steps h amount hins hrange =>
    intro hnm h0 h1
    rw [exec_ptr_error h.1 h.2 hins hrange]
    rfl
  | case6 instrs state steps h amount hins hrange ih =>
    intro hnm h0 h1
    rw [exec_ptr h.1 h.2 hins hrange]
    push_neg at hrange
    exact ih hnm (by simpa using hrange.1) (by simpa using hrange.2)
  | case7 instrs state steps h hins hcell =>
    intro _ h0 h1
    rw [cellGet_some h0 h1] at hcell
    cases hcell
  | case8 instrs state steps h hins x hcell ih =>
    intro hnm h0 h1
    rw [exec_write h.1 h.2 hins hcell]
    exact ih hnm (by simpa using h0) (by simpa using h1)
  | case9 instrs state steps h hins =>
    intro hnm h0 h1
    rw [exec_read h.1 h.2 hins]
    rfl
  | case10 instrs state steps h body hins hcell =>
    intro _ h0 h1
    rw [cellGet_some h0 h1] at hcell
    cases hcell
  | case11 instrs state steps h body hins hcell ih =>
    intro hnm h0 h1
    rw [exec_loop_zero h.1 h.2 hins hcell]
    exact ih hnm (by simpa using h0) (by simpa using h1)
  | case12 instrs state steps h body hins x hcell hx hbody ihb =>
    intro hnm h0 h1
    have hb := (noMultiplyMove_get hnm state.instr_ptr h.1).2 body hins
    have := ihb hb (by simpa using h0) (by simpa using h1)
    rw [hbody] at this
    cases this
  | case13 instrs state steps h body hins x hcell hx stateAfter remaining hbody ihb ih =>
    intro hnm h0 h1
    rw [exec_loop_completed h.1 h.2 hins hcell hx hbody]
    obtain ⟨hlenb, hipb, hleb, hltb, hremb⟩ :=
      executeInner_preserves body { state with instr_ptr := 0 } steps stateAfter
        (Outcome.Completed remaining) hbody
    have hsa := hltb (by simpa using h0) (by simpa using h1)
    exact ih hnm (by simpa using hsa.1) (by simpa using hsa.2)
  | case14 instrs state steps h body hins x hcell hx stateAfter outcome hne hbody ihb =>
    intro hnm h0 h1
    rw [exec_loop_stop h.1 h.2 hins hcell hx hbody (fun r hr => hne r hr)]
    rfl
  | case15 instrs state steps h pairs hins =>
    intro hnm h0 h1
    exact absurd hins ((noMultiplyMove_get hnm state.instr_ptr h.1).1 pairs)
  | case16 instrs state h =>
    intro hnm h0 h1
    rw [exec_terminal h, if_pos rfl]
    rfl
  | case17 instrs state steps h hz =>
    intro hnm h0 h1
    rw [exec_terminal h, if_neg hz]
    rfl


/-! ### Claim theorems: speculative interpreter -/

/-- C1: the spec claims `execute` handles every instruction variant the
optimizer can emit, including `MultiplyMove(map)` (adding `k * c` at
`pointer + offset` for each entry, then zeroing the current cell).  The
`match` in `execute_inner` (`src/execution.rs` lines 49-99) has no
`MultiplyMove` arm at all — a non-exhaustive match, rejected by `rustc` —
so executing a `MultiplyMove` has no defined result (`none` in this
embedding): the code contradicts the spec here. -/
theorem multiply_move_unhandled :
    execute [Instruction.MultiplyMove [(1, 2)]] 10 = none := by
  simp [execute, executeInner.eq_def, highestCellIndex, maxReach]

/-- C2: when a loop body's speculative execution ends in a non-completion
outcome (`ReachedRuntimeValue`, `RuntimeError`, `OutOfSteps`), the
interpreter surfaces that outcome with exactly the pre-body outer state —
cells, cell pointer and outputs untouched, `instr_ptr` still at the
`Loop` (`src/execution.rs` lines 93-96). -/
theorem loop_noncompletion_discards (instrs : List Instruction) (state : ExecutionState)
    (steps : Nat) (body : List Instruction) (x : Nat) (stateAfter : ExecutionState)
    (out : Outcome) (h1 : state.instr_ptr < instrs.length) (h2 : 0 < steps)
    (hins : instrs.get ⟨state.instr_ptr, h1⟩ = Instruction.Loop body)
    (hc : cellGet state = some x) (hx : x ≠ 0)
    (hbody : executeInner body { state with instr_ptr := 0 } steps = some (stateAfter, out))
    (hout : ∀ r, out ≠ Outcome.Completed r) :
    executeInner instrs state steps = some (state, out) :=
  exec_loop_stop h1 h2 hins hc hx hbody hout

/-- Witness for C2: `Loop([Read])` over a non-zero cell: the body stops at
the `Read`, and the outer interpreter returns the untouched outer state
still pointing at the `Loop`. -/
theorem loop_noncompletion_discards_witness :
    executeInner [Instruction.Loop [Instruction.Read]] ⟨0, [1], 0, []⟩ 5 =
      some (⟨0, [1], 0, []⟩, Outcome.ReachedRuntimeValue) := by
  refine loop_noncompletion_discards _ _ _ [Instruction.Read] 1 ⟨0, [1], 0, []⟩
    Outcome.ReachedRuntimeValue (by simp) (by omega) rfl (by simp [cellGet]) (by omega)
    ?_ (fun r => by simp)
  rw [executeInner.eq_def]
  simp [cellGet]

/-- C3: for every program and budget, a state returned by `execute`
satisfies `instr_ptr ≤ len(p)` and `0 ≤ cell_ptr ≤ len(cells)`; and the
same bounds are an invariant of `executeInner`, preserved from any state
satisfying them (so they hold throughout execution, not only at the
end). -/
theorem speculation_bounds :
    (∀ p N st, execute p N = some st →
      st.instr_ptr ≤ p.length ∧ 0 ≤ st.cell_ptr ∧ st.cell_ptr ≤ (st.cells.length : Int)) ∧
    (∀ p s steps s2 out, executeInner p s steps = some (s2, out) →
      s.instr_ptr ≤ p.length → 0 ≤ s.cell_ptr → s.cell_ptr ≤ (s.cells.length : Int) →
      s2.instr_ptr ≤ p.length ∧ 0 ≤ s2.cell_ptr ∧ s2.cell_ptr ≤ (s2.cells.length : Int)) := by
  constructor
  · intro p N st hrun
    unfold execute at hrun
    cases hex : executeInner p
        { instr_ptr := 0, cells := List.replicate (highestCellIndex p + 1) 0,
          cell_ptr := 0, outputs := [] } N with
    | none => rw [hex] at hrun; simp at hrun
    | some pr =>
      rw [hex] at hrun
      obtain ⟨s2, out⟩ := pr
      simp only [Option.map_some', Option.some.injEq] at hrun
      subst hrun
      obtain ⟨hlen, hip, hle, hlt, hrem⟩ := executeInner_preserves _ _ _ _ _ hex
      have h1 := hip (by simp)
      have h2 := hle (by simp) (by simp; omega)
      exact ⟨h1, h2.1, h2.2⟩
  · intro p s steps s2 out hrun hip h0 hle
    obtain ⟨_, hipc, hlec, _, _⟩ := executeInner_preserves _ _ _ _ _ hrun
    exact ⟨hipc hip, hlec h0 hle⟩

/-- Witness for C3: running `[Increment 1]` with budget 5 ends with
`instr_ptr = 1 ≤ 1` and `cell_ptr = 0` within `0..=1`, and the invariant
clause applies to the corresponding inner run. -/
theorem speculation_bounds_witness :
    ((1 : Nat) ≤ 1 ∧ (0 : Int) ≤ 0 ∧ (0 : Int) ≤ 1) ∧
    ((1 : Nat) ≤ 1 ∧ (0 : Int) ≤ 0 ∧ (0 : Int) ≤ 1) := by
  constructor
  · have h := speculation_bounds.1 [Instruction.Increment 1] 5 ⟨1, [1], 0, []⟩ ?_
    · simpa using h
    · simp [execute, executeInner.eq_def, highestCellIndex, maxReach, cellGet, cellSet]
  · have h := speculation_bounds.2 [Instruction.Increment 1] ⟨0, [0], 0, []⟩ 5
        ⟨1, [1], 0, []⟩ (Outcome.Completed 4) ?_ (by simp) (by simp) (by simp)
    · simpa using h
    · simp [executeInner.eq_def, cellGet, cellSet]

/-- C4: speculation stops *at* a `Read` (runtime input cannot be
speculated) and *at* a `PointerIncrement` that would move the pointer out
of range, returning in both cases the state just before that instruction —
`instr_ptr` pointing at the offending instruction, cells, pointer and
outputs unmodified by it (`src/execution.rs` lines 58-67 and 73-75). -/
theorem stop_at_read_and_ptr_error :
    (∀ (p : List Instruction) (s : ExecutionState) (steps : Nat)
      (h1 : s.instr_ptr < p.length), 0 < steps →
      p.get ⟨s.instr_ptr, h1⟩ = Instruction.Read →
      executeInner p s steps = some (s, Outcome.ReachedRuntimeValue)) ∧
    (∀ (p : List Instruction) (s : ExecutionState) (steps : Nat) (d : Int)
      (h1 : s.instr_ptr < p.length), 0 < steps →
      p.get ⟨s.instr_ptr, h1⟩ = Instruction.PointerIncrement d →
      (s.cell_ptr + d < 0 ∨ (s.cells.length : Int) ≤ s.cell_ptr + d) →
      executeInner p s steps = some (s, Outcome.RuntimeError)) :=
  ⟨fun _ _ _ h1 h2 hins => exec_read h1 h2 hins,
   fun _ _ _ _ h1 h2 hins hrange => exec_ptr_error h1 h2 hins hrange⟩

/-- Witness for C4: `[Read, Write]` stops at index 0 untouched (the Rust
test `cant_evaluate_inputs`), and `[PointerIncrement (-1)]` from cell 0
stops at index 0 with a runtime error (the Rust test
`ptr_out_of_range`). -/
theorem stop_at_read_and_ptr_error_witness :
    executeInner [Instruction.Read, Instruction.Write] ⟨0, [0], 0, []⟩ 10 =
      some (⟨0, [0], 0, []⟩, Outcome.ReachedRuntimeValue) ∧
    executeInner [Instruction.PointerIncrement (-1)] ⟨0, [0], 0, []⟩ 10 =
      some (⟨0, [0], 0, []⟩, Outcome.RuntimeError) :=
  ⟨stop_at_read_and_ptr_error.1 _ _ 10 (by simp) (by omega) rfl,
   stop_at_read_and_ptr_error.2 _ _ 10 (-1) (by simp) (by omega) rfl (by simp)⟩

/-- C5 counterexample: the claim quantifies over *every* IR sequence, but
on a program containing `MultiplyMove` (which the optimizer can emit) the
interpreter has no defined result at all — the `match` in `execute_inner`
has no arm for it. -/
theorem step_budget_cex : execute [Instruction.MultiplyMove [(2, 3)]] 7 = none := by
  simp [execute, executeInner.eq_def, highestCellIndex, maxReach]

/-- C5 (amended to `MultiplyMove`-free programs): `execute` always returns
an `ExecutionState`, consuming at most `N` steps (a completed run reports
`1 ≤ remaining ≤ N`); an infinite loop such as `++[]` simply exhausts the
budget — the step budget is the sole bounded-time mechanism. -/
theorem step_budget_terminates :
    (∀ p N, noMultiplyMove p = true → ∃ st, execute p N = some st) ∧
    (∀ p s steps s2 r, executeInner p s steps = some (s2, Outcome.Completed r) →
      1 ≤ r ∧ r ≤ steps) ∧
    execute [Instruction.Increment 1, Instruction.Increment 1, Instruction.Loop []] 20 =
      some ⟨2, [2], 0, []⟩ := by
  refine ⟨?_, ?_, ?_⟩
  · intro p N hnm
    have h := executeInner_isSome p
        { instr_ptr := 0, cells := List.replicate (highestCellIndex p + 1) 0,
          cell_ptr := 0, outputs := [] } N hnm (by simp) (by simp)
    unfold execute
    cases hex : executeInner p
        { instr_ptr := 0, cells := List.replicate (highestCellIndex p + 1) 0,
          cell_ptr := 0, outputs := [] } N with
    | none => rw [hex] at h; cases h
    | some pr => exact ⟨pr.1, rfl⟩
  · intro p s steps s2 r hrun
    exact (executeInner_preserves _ _ _ _ _ hrun).2.2.2.2 r rfl
  · simp [execute, executeInner.eq_def, highestCellIndex, maxReach, cellGet, cellSet]

/-- Witness for C5: the universally quantified parts applied to the
concrete program `[Increment 1]` with budget 3. -/
theorem step_budget_terminates_witness :
    (∃ st, execute [Instruction.Increment 1] 3 = some st) ∧
    ((1 : Nat) ≤ 2 ∧ (2 : Nat) ≤ 3) := by
  constructor
  · exact step_budget_terminates.1 [Instruction.Increment 1] 3 (by simp [noMultiplyMove])
  · exact step_budget_terminates.2.1 [Instruction.Increment 1] ⟨0, [0], 0, []⟩ 3
      ⟨1, [1], 0, []⟩ 2 (by simp [executeInner.eq_def, cellGet, cellSet])

/-- C8: `Increment(d)` adds `d` to the current cell modulo 256 (8-bit
wrap-around, `src/execution.rs` lines 50-53); `"-"` parses to
`Increment(255)` (i.e. `-1` wrapped) and executing it on a fresh state
leaves the cell holding 255; `Increment(255)` then `Increment(1)` wraps
back to 0 (the Rust tests `decrement_executed` and `increment_wraps`). -/
theorem increment_wrapping :
    (∀ (p : List Instruction) (s : ExecutionState) (steps : Nat) (d x : Nat)
      (h1 : s.instr_ptr < p.length), 0 < steps →
      p.get ⟨s.instr_ptr, h1⟩ = Instruction.Increment d → cellGet s = some x →
      executeInner p s steps =
        executeInner p { cellSet s ((x + d) % 256) with instr_ptr := s.instr_ptr + 1 }
          (steps - 1)) ∧
    parse ['-'] = Except.ok [Instruction.Increment 255] ∧
    execute [Instruction.Increment 255] 10 = some ⟨1, [255], 0, []⟩ ∧
    execute [Instruction.Increment 255, Instruction.Increment 1] 10 =
      some ⟨2, [0], 0, []⟩ := by
  refine ⟨fun p s steps d x h1 h2 hins hc => exec_increment h1 h2 hins hc, rfl, ?_, ?_⟩
  · simp [execute, executeInner.eq_def, highestCellIndex, maxReach, cellGet, cellSet]
  · simp [execute, executeInner.eq_def, highestCellIndex, maxReach, cellGet, cellSet]

/-- Witness for C8: one wrapping step on a concrete state — incrementing a
cell holding 200 by 100 stores `(200 + 100) % 256 = 44`. -/
theorem increment_wrapping_witness :
    executeInner [Instruction.Increment 100] ⟨0, [200], 0, []⟩ 2 =
      executeInner [Instruction.Increment 100] ⟨1, [44], 0, []⟩ 1 := by
  have h := increment_wrapping.1 [Instruction.Increment 100] ⟨0, [200], 0, []⟩ 2 100 200
    (by simp) (by omega) rfl (by simp [cellGet])
  simpa [cellSet] using h

/-- C10: at every tape access the cell pointer is strictly within bounds:
the initial tape has `highest_cell_index + 1 ≥ 1` cells with `cell_ptr =
0`; `PointerIncrement` — the only instruction moving the pointer — rejects
any move outside `0..len(cells)` (`src/execution.rs` lines 58-67); hence
`0 ≤ cell_ptr < len(cells)` is preserved, holds at any returned state, and
(on `MultiplyMove`-free programs, where the non-exhaustive match cannot be
reached) no cell access of `executeInner` is ever out of range — modelled
by `executeInner` never returning `none`, since every out-of-range access
is embedded as `none`. -/
theorem cell_ptr_safety :
    (∀ p N st, execute p N = some st →
      0 ≤ st.cell_ptr ∧ st.cell_ptr < (st.cells.length : Int) ∧ 1 ≤ st.cells.length) ∧
    (∀ p s steps s2 out, executeInner p s steps = some (s2, out) →
      0 ≤ s.cell_ptr → s.cell_ptr < (s.cells.length : Int) →
      0 ≤ s2.cell_ptr ∧ s2.cell_ptr < (s2.cells.length : Int)) ∧
    (∀ p s steps, noMultiplyMove p = true → 0 ≤ s.cell_ptr →
      s.cell_ptr < (s.cells.length : Int) → (executeInner p s steps).isSome) := by
  refine ⟨?_, ?_, ?_⟩
  · intro p N st hrun
    unfold execute at hrun
    cases hex : executeInner p
        { instr_ptr := 0, cells := List.replicate (highestCellIndex p + 1) 0,
          cell_ptr := 0, outputs := [] } N with
    | none => rw [hex] at hrun; simp at hrun
    | some pr =>
      rw [hex] at hrun
      obtain ⟨s2, out⟩ := pr
      simp only [Option.map_some', Option.some.injEq] at hrun
      subst hrun
      obtain ⟨hlen, _, _, hlt, _⟩ := executeInner_preserves _ _ _ _ _ hex
      have h2 := hlt (by simp) (by simp)
      refine ⟨h2.1, h2.2, ?_⟩
      simp at hlen
      omega
  · intro p s steps s2 out hrun h0 hlt
    exact (executeInner_preserves _ _ _ _ _ hrun).2.2.2.1 h0 hlt
  · intro p s steps hnm h0 hlt
    exact executeInner_isSome p s steps hnm h0 hlt

/-- Witness for C10: the bounds at the state returned by running `[>]`
(tape of two cells), the invariant clause on a concrete inner run, and
totality on the concrete `MultiplyMove`-free program `[Read]`. -/
theorem cell_ptr_safety_witness :
    ((0 : Int) ≤ 1 ∧ (1 : Int) < 2 ∧ (1 : Nat) ≤ 2) ∧
    ((0 : Int) ≤ 1 ∧ (1 : Int) < 2) ∧
    (executeInner [Instruction.Read] ⟨0, [0], 0, []⟩ 4).isSome := by
  refine ⟨?_, ?_, ?_⟩
  · have h := cell_ptr_safety.1 [Instruction.PointerIncrement 1] 9 ⟨1, [0, 0], 1, []⟩ ?_
    · simpa using h
    · simp [execute, executeInner.eq_def, highestCellIndex, maxReach, cellGet, cellSet]
  · have h := cell_ptr_safety.2.1 [Instruction.PointerIncrement 1] ⟨0, [0, 0], 0, []⟩ 9
        ⟨1, [0, 0], 1, []⟩ (Outcome.Completed 8) ?_ (by simp) (by simp)
    · simpa using h
    · simp [executeInner.eq_def, cellGet, cellSet]
  · exact cell_ptr_safety.2.2 [Instruction.Read] ⟨0, [0], 0, []⟩ 4 (by simp [noMultiplyMove])
      (by simp) (by simp)


/-! ### Optimizer lemmas (for C9) -/

/-- Node count of a single instruction. -/
theorem countInstrs_cons (i : Instruction) (rest : List Instruction) :
    countInstrs (i :: rest) =
      (match i with
       | Instruction.Loop body => 1 + countInstrs body
       | _ => 1) + countInstrs rest := by
  cases i <;> simp [countInstrs] <;> omega

theorem countInstrs_cons_le (i : Instruction) (rest : List Instruction) :
    1 + countInstrs rest ≤ countInstrs (i :: rest) := by
  cases i <;> simp [countInstrs] <;> omega

/-- `instrBEq` and `instrListBEq` decide structural equality. -/
theorem instrListBEq_iff : ∀ (as bs : List Instruction), instrListBEq as bs = true ↔ as = bs := by
  have main : ∀ (n : Nat) (as bs : List Instruction), countInstrs as ≤ n →
      (instrListBEq as bs = true ↔ as = bs) := by
    intro n
    induction n with
    | zero =>
      intro as bs hn
      cases as with
      | nil => cases bs <;> simp [instrListBEq]
      | cons a as' => have := countInstrs_cons_le a as'; omega
    | succ n ih =>
      intro as bs hn
      cases as with
      | nil => cases bs <;> simp [instrListBEq]
      | cons a as' =>
        cases bs with
        | nil => simp [instrListBEq]
        | cons b bs' =>
          have hcons := countInstrs_cons a as'
          have htail : countInstrs as' ≤ n := by
            have := countInstrs_cons_le a as'; omega
          have hhead : instrBEq a b = true ↔ a = b := by
            cases a <;> cases b <;>
              simp_all [instrBEq, instrListBEq] <;>
              first
              | rfl
              | (rename_i la lb
                 have hla : countInstrs la ≤ n := by
                   simp [countInstrs] at hcons ⊢ <;> omega
                 exact ih la lb hla)
          rw [show instrListBEq (a :: as') (b :: bs') = (instrBEq a b && instrListBEq as' bs')
            from rfl]
          rw [Bool.and_eq_true]
          rw [hhead, ih as' bs' htail]
          simp
  intro as bs
  exact main (countInstrs as) as bs (Nat.le_refl _)

theorem instrListBEq_refl (as : List Instruction) : instrListBEq as as = true :=
  (instrListBEq_iff as as).2 rfl


/-- Every rewrite of the local sweep removes one instruction: a pass is
either the identity or strictly decreases the node count. -/
theorem combineSweep_fix : ∀ l : List Instruction,
    combineSweep l = l ∨ countInstrs (combineSweep l) < countInstrs l := by
  intro l
  induction l using combineSweep.induct with
  | case1 a b rest hz ih =>
    right
    rw [show combineSweep (Instruction.Increment a :: Instruction.Increment b :: rest) =
      combineSweep rest by rw [combineSweep]; simp [hz]]
    rcases ih with h | h
    · rw [h]; simp only [countInstrs]; omega
    · simp only [countInstrs] at h ⊢; omega
  | case2 a b rest hz ih =>
    right
    rw [show combineSweep (Instruction.Increment a :: Instruction.Increment b :: rest) =
      combineSweep (Instruction.Increment ((a + b) % 256) :: rest) by
        rw [combineSweep]; simp [hz]]
    rcases ih with h | h
    · rw [h]; simp only [countInstrs]; omega
    · simp only [countInstrs] at h ⊢; omega
  | case3 a b rest hz ih =>
    right
    rw [show combineSweep (Instruction.PointerIncrement a :: Instruction.PointerIncrement b ::
      rest) = combineSweep rest by rw [combineSweep]; simp [hz]]
    rcases ih with h | h
    · rw [h]; simp only [countInstrs]; omega
    · simp only [countInstrs] at h ⊢; omega
  | case4 a b rest hz ih =>
    right
    rw [show combineSweep (Instruction.PointerIncrement a :: Instruction.PointerIncrement b ::
      rest) = combineSweep (Instruction.PointerIncrement (a + b) :: rest) by
        rw [combineSweep]; simp [hz]]
    rcases ih with h | h
    · rw [h]; simp only [countInstrs]; omega
    · simp only [countInstrs] at h ⊢; omega
  | case5 v d rest ih =>
    right
    rw [show combineSweep (Instruction.Set v :: Instruction.Increment d :: rest) =
      combineSweep (Instruction.Set ((v + d) % 256) :: rest) from by rw [combineSweep]]
    rcases ih with h | h
    · rw [h]; simp only [countInstrs]; omega
    · simp only [countInstrs] at h ⊢; omega
  | case6 v w rest ih =>
    right
    rw [show combineSweep (Instruction.Set v :: Instruction.Set w :: rest) =
      combineSweep (Instruction.Set w :: rest) from by rw [combineSweep]]
    rcases ih with h | h
    · rw [h]; simp only [countInstrs]; omega
    · simp only [countInstrs] at h ⊢; omega
  | case7 v rest ih =>
    right
    rw [show combineSweep (Instruction.Set v :: Instruction.Read :: rest) =
      combineSweep (Instruction.Read :: rest) from by rw [combineSweep]]
    rcases ih with h | h
    · rw [h]; simp only [countInstrs]; omega
    · simp only [countInstrs] at h ⊢; omega
  | case8 i rest hn1 hn2 hn3 hn4 hn5 ih =>
    have hstep : combineSweep (i :: rest) = i :: combineSweep rest := by
      rw [combineSweep.eq_def]
      split <;> simp_all
    rw [hstep]
    rcases ih with h | h
    · left; rw [h]
    · right
      have h1 := countInstrs_cons i (combineSweep rest)
      have h2 := countInstrs_cons i rest
      cases i <;> simp_all <;> omega
  | case9 => left; rw [combineSweep]


theorem countInstrs_pos {l : List Instruction} (h : l ≠ []) : 1 ≤ countInstrs l := by
  cases l with
  | nil => exact absurd rfl h
  | cons i rest => have := countInstrs_cons_le i rest; omega

/-- Keeping the head preserves the identity-or-decrease disjunction. -/
theorem cons_fix (i : Instruction) {r2 rest : List Instruction}
    (h : r2 = rest ∨ countInstrs r2 < countInstrs rest) :
    i :: r2 = i :: rest ∨ countInstrs (i :: r2) < countInstrs (i :: rest) := by
  rcases h with rfl | h
  · left; rfl
  · right
    rw [countInstrs_cons i r2, countInstrs_cons i rest]
    omega

theorem mmMap_nil : mmMap [] = none := by
  simp [mmMap, mmScan, lookupDelta]

/-- The loop-shaped sweep is the identity or strictly decreases the node
count: rule 7 removes a whole loop, rule 5 turns two nodes into one, rule
6 turns a loop with a non-empty body into one node. -/
theorem loopSweep_fix : ∀ (z : Bool) (l : List Instruction),
    loopSweep z l = l ∨ countInstrs (loopSweep z l) < countInstrs l := by
  intro z l
  induction z, l using loopSweep.induct with
  | case1 z => left; rw [loopSweep]
  | case2 body rest ih =>
    right
    rw [show loopSweep true (Instruction.Loop body :: rest) = loopSweep true rest by
      rw [loopSweep]; simp]
    rcases ih with h | h
    · rw [h]; simp only [countInstrs]; omega
    · simp only [countInstrs]; omega
  | case3 kz body rest hkz h5 ih =>
    right
    rw [show loopSweep kz (Instruction.Loop body :: rest) =
        Instruction.Set 0 :: loopSweep true rest by
      rw [loopSweep.eq_def]; simp [hkz, h5]]
    have hbody : body = [Instruction.Increment 255] ∨ body = [Instruction.Increment 1] := by
      rw [Bool.or_eq_true] at h5
      rcases h5 with h | h
      · exact Or.inl ((instrListBEq_iff _ _).1 h)
      · exact Or.inr ((instrListBEq_iff _ _).1 h)
    have hb1 : countInstrs body = 1 := by
      rcases hbody with rfl | rfl <;> simp [countInstrs]
    rcases ih with h | h
    · rw [h]; simp only [countInstrs]; omega
    · simp only [countInstrs]; omega
  | case4 kz body rest hkz h5 m hmm ih =>
    right
    rw [show loopSweep kz (Instruction.Loop body :: rest) =
        Instruction.MultiplyMove m :: loopSweep true rest by
      rw [loopSweep.eq_def]; simp [hkz, h5, hmm]]
    have hbody : body ≠ [] := by
      intro hb
      rw [hb, mmMap_nil] at hmm
      cases hmm
    have hb1 := countInstrs_pos hbody
    rcases ih with h | h
    · rw [h]; simp only [countInstrs]; omega
    · simp only [countInstrs]; omega
  | case5 kz body rest hkz h5 hmm ih =>
    rw [show loopSweep kz (Instruction.Loop body :: rest) =
        Instruction.Loop body :: loopSweep false rest by
      rw [loopSweep.eq_def]; simp [hkz, h5, hmm]]
    exact cons_fix _ ih
  | case6 z v rest ih =>
    rw [show loopSweep z (Instruction.Set v :: rest) =
        Instruction.Set v :: loopSweep (v == 0) rest by rw [loopSweep]]
    exact cons_fix _ ih
  | case7 z m rest ih =>
    rw [show loopSweep z (Instruction.MultiplyMove m :: rest) =
        Instruction.MultiplyMove m :: loopSweep true rest by rw [loopSweep]]
    exact cons_fix _ ih
  | case8 kz rest ih =>
    rw [show loopSweep kz (Instruction.Write :: rest) =
        Instruction.Write :: loopSweep kz rest by rw [loopSweep]]
    exact cons_fix _ ih
  | case9 z i rest hn1 hn2 hn3 hn4 ih =>
    have hstep : loopSweep z (i :: rest) = i :: loopSweep false rest := by
      rw [loopSweep.eq_def]
      cases i <;> simp_all
    rw [hstep]
    exact cons_fix _ ih


/-- Chaining identity-or-decrease steps. -/
theorem trans_fix {a b c : List Instruction}
    (h1 : b = a ∨ countInstrs b < countInstrs a)
    (h2 : c = b ∨ countInstrs c < countInstrs b) :
    c = a ∨ countInstrs c < countInstrs a := by
  rcases h1 with rfl | h1 <;> rcases h2 with rfl | h2
  · left; rfl
  · right; exact h2
  · right; exact h1
  · right; omega

theorem loop_cons_fix {inner body r2 rest : List Instruction}
    (hin : inner = body ∨ countInstrs inner < countInstrs body)
    (hr : r2 = rest ∨ countInstrs r2 < countInstrs rest) :
    Instruction.Loop inner :: r2 = Instruction.Loop body :: rest ∨
      countInstrs (Instruction.Loop inner :: r2) <
        countInstrs (Instruction.Loop body :: rest) := by
  rcases hin with rfl | hin <;> rcases hr with rfl | hr
  · left; rfl
  all_goals (right; simp only [countInstrs]; omega)

/-- Recursing into loop bodies is the identity or strictly decreases the
node count. -/
theorem recurseBodies_fix : ∀ l : List Instruction,
    recurseBodies l = l ∨ countInstrs (recurseBodies l) < countInstrs l := by
  intro l
  induction l using recurseBodies.induct with
  | case1 => left; rw [recurseBodies]
  | case2 body rest ihb ihr =>
    rw [show recurseBodies (Instruction.Loop body :: rest) =
        Instruction.Loop (loopSweep false (combineSweep (recurseBodies body))) ::
          recurseBodies rest by rw [recurseBodies]]
    exact loop_cons_fix
      (trans_fix (trans_fix ihb (combineSweep_fix _)) (loopSweep_fix _ _)) ihr
  | case3 i rest hn ih =>
    have hstep : recurseBodies (i :: rest) = i :: recurseBodies rest := by
      rw [recurseBodies.eq_def]
      cases i <;> simp_all
    rw [hstep]
    exact cons_fix _ ih

/-- A full optimizer pass is the identity or strictly decreases the node
count — the well-founded measure the spec cites for termination of the
fixed-point iteration. -/
theorem passAt_fix (z : Bool) (l : List Instruction) :
    passAt z l = l ∨ countInstrs (passAt z l) < countInstrs l :=
  trans_fix (trans_fix (recurseBodies_fix l) (combineSweep_fix _)) (loopSweep_fix _ _)

/-- With fuel exceeding the node count, the iteration reaches a true fixed
point of the pass. -/
theorem optimizeIter_fixpoint : ∀ (fuel : Nat) (l : List Instruction),
    countInstrs l < fuel →
    passAt true (optimizeIter fuel l) = optimizeIter fuel l := by
  intro fuel
  induction fuel with
  | zero => intro l h; omega
  | succ n ih =>
    intro l h
    rw [optimizeIter]
    by_cases hbeq : instrListBEq (passAt true l) l = true
    · simp only [hbeq, if_true]
      exact (instrListBEq_iff _ _).1 hbeq
    · simp only [hbeq, if_false]
      rcases passAt_fix true l with heq | hlt
      · exact absurd ((instrListBEq_iff _ _).2 heq) hbeq
      · exact ih (passAt true l) (by omega)

/-- A program already fixed by the pass is fixed by `optimize`. -/
theorem optimize_of_fix {l : List Instruction} (h : passAt true l = l) :
    optimize l = l := by
  unfold optimize
  rw [optimizeIter]
  simp only [h, instrListBEq_refl, if_true]

/-- C9: the peephole optimizer is idempotent: it iterates its rewrite set
until a pass returns a value structurally equal to its input, every
changing pass strictly decreases the node count, so `optimize p` is a
fixed point of the pass and `optimize (optimize p) = optimize p`. -/
theorem optimize_idempotent (p : List Instruction) :
    optimize (optimize p) = optimize p :=
  optimize_of_fix (optimizeIter_fixpoint (countInstrs p + 1) p (Nat.lt_succ_self _))


/-! ### Parser lemmas (for C6 and C7): the depth counter -/

theorem depthStep_add (c : Char) (d e : Int) :
    depthStep c (d + e) = depthStep c d + e := by
  unfold depthStep
  split
  · omega
  · split <;> omega

theorem depthAfter_add : ∀ (l : List Char) (d e : Int),
    depthAfter l (d + e) = depthAfter l d + e := by
  intro l
  induction l with
  | nil => intro d e; rfl
  | cons c rest ih =>
    intro d e
    simp only [depthAfter, depthStep_add]
    exact ih _ _

theorem depthAfter_append : ∀ (a b : List Char) (d : Int),
    depthAfter (a ++ b) d = depthAfter b (depthAfter a d) := by
  intro a
  induction a with
  | nil => intro b d; rfl
  | cons c rest ih => intro b d; simp only [List.cons_append, depthAfter]; exact ih _ _

theorem prefixValid_append : ∀ (a b : List Char) (d : Int),
    prefixValid (a ++ b) d = (prefixValid a d && prefixValid b (depthAfter a d)) := by
  intro a
  induction a with
  | nil => intro b d; simp [prefixValid, depthAfter]
  | cons c rest ih =>
    intro b d
    by_cases h1 : c = ']'
    · subst h1
      simp [prefixValid, depthAfter, depthStep, ih, Bool.and_assoc]
    · by_cases h2 : c = '['
      · subst h2
        simp [prefixValid, depthAfter, depthStep, ih]
      · simp [prefixValid, depthAfter, depthStep, h1, h2, ih]

theorem prefixValid_nonneg : ∀ (l : List Char) (d : Int), 0 ≤ d →
    prefixValid l d = true → 0 ≤ depthAfter l d := by
  intro l
  induction l with
  | nil => intro d h _; exact h
  | cons c rest ih =>
    intro d hd hv
    simp only [prefixValid] at hv
    simp only [depthAfter]
    by_cases h1 : c = ']'
    · subst h1
      rw [if_pos rfl] at hv
      rw [Bool.and_eq_true, decide_eq_true_iff] at hv
      have : depthStep ']' d = d - 1 := by unfold depthStep; simp
      rw [this]
      exact ih (d - 1) (by omega) hv.2
    · by_cases h2 : c = '['
      · subst h2
        rw [if_neg (by decide), if_pos rfl] at hv
        have : depthStep '[' d = d + 1 := by unfold depthStep; simp
        rw [this]
        exact ih (d + 1) (by omega) hv
      · rw [if_neg h1, if_neg h2] at hv
        have : depthStep c d = d := by unfold depthStep; rw [if_neg h2, if_neg h1]
        rw [this]
        exact ih d hd hv

theorem prefixValid_of_nonneg : ∀ (l : List Char) (d : Int),
    (∀ m, m ≤ l.length → 0 ≤ depthAfter (l.take m) d) → prefixValid l d = true := by
  intro l
  induction l with
  | nil => intro d _; rfl
  | cons c rest ih =>
    intro d hm
    have hd : 0 ≤ d := by simpa using hm 0 (by omega)
    have htail : ∀ m, m ≤ rest.length → 0 ≤ depthAfter (rest.take m) (depthStep c d) := by
      intro m hmle
      have := hm (m + 1) (by simp; omega)
      simpa [List.take_cons, depthAfter] using this
    simp only [prefixValid]
    by_cases h1 : c = ']'
    · subst h1
      rw [if_pos rfl, Bool.and_eq_true, decide_eq_true_iff]
      have hstep : depthStep ']' d = d - 1 := by unfold depthStep; simp
      have h0 : 0 ≤ d - 1 := by
        have := hm 1 (by simp)
        simpa [depthAfter, hstep] using this
      exact ⟨by omega, ih (d - 1) (by rw [← hstep]; exact htail)⟩
    · by_cases h2 : c = '['
      · subst h2
        rw [if_neg (by decide), if_pos rfl]
        have hstep : depthStep '[' d = d + 1 := by unfold depthStep; simp
        exact ih (d + 1) (by rw [← hstep]; exact htail)
      · rw [if_neg h1, if_neg h2]
        have hstep : depthStep c d = d := by unfold depthStep; rw [if_neg h2, if_neg h1]
        exact ih d (by rw [← hstep]; exact htail)


theorem findCloseAux_bounds : ∀ (l : List Char) (idx : Nat) (d : Int) (j : Nat),
    findCloseAux l idx d = some j → idx ≤ j ∧ j - idx < l.length := by
  intro l
  induction l with
  | nil => intro idx d j h; cases h
  | cons c rest ih =>
    intro idx d j h
    rw [findCloseAux] at h
    split at h
    · cases h
      simp
    · have := ih (idx + 1) (depthStep c d) j h
      constructor
      · omega
      · simp; omega

theorem findCloseAux_append : ∀ (t : List Char) (u : List Char) (idx : Nat) (d : Int)
    (j : Nat), findCloseAux t idx d = some j → findCloseAux (t ++ u) idx d = some j := by
  intro t
  induction t with
  | nil => intro u idx d j h; cases h
  | cons c rest ih =>
    intro u idx d j h
    rw [findCloseAux] at h
    rw [List.cons_append, findCloseAux]
    split at h
    · rw [if_pos (by assumption)]
      exact h
    · rw [if_neg (by assumption)]
      exact ih u (idx + 1) (depthStep c d) j h

/-- When the depth counter starts at least 1 and ends at most 0, the scan
finds a first return to zero. -/
theorem findCloseAux_exists : ∀ (t : List Char) (d : Int) (idx : Nat), 1 ≤ d →
    depthAfter t d ≤ 0 → ∃ j, findCloseAux t idx d = some j := by
  intro t
  induction t with
  | nil =>
    intro d idx hd hda
    simp [depthAfter] at hda
    omega
  | cons c rest ih =>
    intro d idx hd hda
    rw [findCloseAux]
    by_cases hz : depthStep c d = 0
    · exact ⟨idx, by rw [if_pos hz]⟩
    · rw [if_neg hz]
      have hstep : d - 1 ≤ depthStep c d := by
        unfold depthStep
        split
        · omega
        · split <;> omega
      have : 1 ≤ depthStep c d := by omega
      exact ih (depthStep c d) (idx + 1) this (by simpa [depthAfter] using hda)

/-- What a successful `findCloseAux` scan means: the close is within the
list, the depth counter returns to zero exactly when the close is
processed, and stays at least 1 strictly before it. -/
theorem findCloseAux_spec : ∀ (t : List Char) (d : Int) (idx : Nat) (j : Nat), 1 ≤ d →
    findCloseAux t idx d = some j →
    idx ≤ j ∧ j - idx < t.length ∧ depthAfter (t.take (j - idx + 1)) d = 0 ∧
      ∀ m, m ≤ j - idx → 1 ≤ depthAfter (t.take m) d := by
  intro t
  induction t with
  | nil => intro d idx j _ h; cases h
  | cons c rest ih =>
    intro d idx j hd h
    rw [findCloseAux] at h
    split at h
    · cases h
      refine ⟨Nat.le_refl _, by simp, ?_, ?_⟩
      · simp only [Nat.sub_self, List.take_succ_cons, List.take_zero, depthAfter]
        assumption
      · intro m hm
        have : m = 0 := by omega
        subst this
        simpa [depthAfter] using hd
    · rename_i hz
      have hstep : d - 1 ≤ depthStep c d ∧ depthStep c d ≤ d + 1 := by
        unfold depthStep; constructor <;> (split <;> try split) <;> omega
      have hd2 : 1 ≤ depthStep c d := by omega
      obtain ⟨hj1, hj2, hz2, hmin⟩ := ih (depthStep c d) (idx + 1) j hd2 h
      refine ⟨by omega, by simp; omega, ?_, ?_⟩
      · have hk : j - idx + 1 = (j - (idx + 1) + 1) + 1 := by omega
        rw [hk, List.take_succ_cons, depthAfter]
        exact hz2
      · intro m hm
        cases m with
        | zero => simpa [depthAfter] using hd
        | succ m' =>
          rw [List.take_succ_cons, depthAfter]
          exact hmin m' (by omega)

theorem firstNeg_lt_length : ∀ (l : List Char) (d : Int) (k : Nat),
    firstNeg l d = some k → k < l.length := by
  intro l
  induction l with
  | nil => intro d k h; cases h
  | cons c rest ih =>
    intro d k h
    rw [firstNeg] at h
    split at h
    · cases h; simp
    · simp only [Option.map_eq_some'] at h
      obtain ⟨a, ha, rfl⟩ := h
      have := ih _ _ ha
      simp
      omega

/-- If the depth never goes negative along any prefix, there is no first
negative position. -/
theorem firstNeg_none_of_nonneg : ∀ (l : List Char) (d : Int),
    (∀ m, m ≤ l.length → 0 ≤ depthAfter (l.take m) d) → firstNeg l d = none := by
  intro l
  induction l with
  | nil => intro d _; rfl
  | cons c rest ih =>
    intro d hm
    rw [firstNeg]
    have h1 : 0 ≤ depthStep c d := by
      have := hm 1 (by simp)
      simpa [depthAfter] using this
    rw [if_neg (by omega)]
    have : firstNeg rest (depthStep c d) = none := by
      apply ih
      intro m hmle
      have := hm (m + 1) (by simp; omega)
      simpa [depthAfter] using this
    rw [this]
    rfl

theorem firstNeg_append : ∀ (a b : List Char) (d : Int),
    firstNeg (a ++ b) d =
      match firstNeg a d with
      | some k => some k
      | none => (firstNeg b (depthAfter a d)).map (· + a.length) := by
  intro a
  induction a with
  | nil => intro b d; simp [firstNeg, depthAfter]
  | cons c rest ih =>
    intro b d
    rw [List.cons_append, firstNeg, firstNeg]
    by_cases hz : depthStep c d < 0
    · rw [if_pos hz, if_pos hz]
    · rw [if_neg hz, if_neg hz, ih]
      cases hfn : firstNeg rest (depthStep c d) with
      | some k => simp
      | none =>
        simp only [depthAfter]
        cases firstNeg b (depthAfter rest (depthStep c d)) with
        | none => simp
        | some k => simp; omega


/-! ### Segment lemmas -/

theorem seg_length {chars : List Char} {a b : Nat} (h1 : a ≤ b) (h2 : b ≤ chars.length) :
    (seg chars a b).length = b - a := by
  simp [seg, List.length_take, List.length_drop]
  omega

theorem seg_cons {chars : List Char} {a b : Nat} (h1 : a < b) (h2 : a < chars.length) :
    seg chars a b = chars.get ⟨a, h2⟩ :: seg chars (a + 1) b := by
  unfold seg
  rw [← List.get_cons_drop chars ⟨a, h2⟩]
  rw [show b - a = (b - (a + 1)) + 1 by omega, List.take_succ_cons]

theorem drop_eq_seg_append {chars : List Char} {a b : Nat} (h1 : a ≤ b)
    (h2 : b ≤ chars.length) :
    chars.drop a = seg chars a b ++ chars.drop b := by
  unfold seg
  conv_lhs => rw [← List.take_append_drop (b - a) (chars.drop a)]
  rw [List.drop_drop]
  congr 2
  omega

theorem seg_take {chars : List Char} {a b k : Nat} (h1 : a + k ≤ b) :
    (seg chars a b).take k = seg chars a (a + k) := by
  unfold seg
  rw [List.take_take]
  congr 1
  omega

theorem seg_drop {chars : List Char} (a b k : Nat) :
    (seg chars a b).drop k = seg chars (a + k) b := by
  unfold seg
  rw [List.drop_take, List.drop_drop]
  congr 1
  omega

theorem seg_zero_length (chars : List Char) : seg chars 0 chars.length = chars := by
  simp [seg]

/-! ### Character step helpers -/

theorem step_other {c : Char} (h1 : c ≠ '[') (h2 : c ≠ ']') (rest : List Char) (d : Int) :
    prefixValid (c :: rest) d = prefixValid rest d ∧
    depthAfter (c :: rest) d = depthAfter rest d := by
  have hs : depthStep c d = d := by unfold depthStep; rw [if_neg h1, if_neg h2]
  constructor
  · rw [prefixValid, if_neg h2, if_neg h1]
  · rw [show depthAfter (c :: rest) d = depthAfter rest (depthStep c d) from rfl, hs]

theorem step_open (rest : List Char) (d : Int) :
    prefixValid ('[' :: rest) d = prefixValid rest (d + 1) ∧
    depthAfter ('[' :: rest) d = depthAfter rest (d + 1) := by
  have hs : depthStep '[' d = d + 1 := by unfold depthStep; simp
  constructor
  · rw [prefixValid, if_neg (by decide), if_pos rfl]
  · rw [show depthAfter ('[' :: rest) d = depthAfter rest (depthStep '[' d) from rfl, hs]

theorem close_not_valid (rest : List Char) : prefixValid (']' :: rest) 0 = false := by
  rw [prefixValid, if_pos rfl]
  simp

theorem depthStep_zero_of_ge_one {x : Char} {D : Int} (h1 : 1 ≤ D)
    (h0 : depthStep x D = 0) : D = 1 ∧ x = ']' := by
  unfold depthStep at h0
  split at h0
  · omega
  · split at h0
    · exact ⟨by omega, by assumption⟩
    · omega

/-- Full analysis of the matching close found inside a scan started just
after a `[`: position, the closing character, and balancedness of the
interior and of what the depth profile looks like at the close. -/
theorem close_analysis {t : List Char} {idx j : Nat}
    (hfc : findCloseAux t idx 1 = some j) :
    idx ≤ j ∧ j - idx < t.length ∧
    (∀ h : j - idx < t.length, t.get ⟨j - idx, h⟩ = ']') ∧
    prefixValid (t.take (j - idx)) 0 = true ∧
    depthAfter (t.take (j - idx)) 0 = 0 ∧
    depthAfter (t.take (j - idx + 1)) 1 = 0 := by
  obtain ⟨hj1, hj2, hz, hmin⟩ := findCloseAux_spec t 1 idx j (by omega) hfc
  set k := j - idx with hk
  have hdk : 1 ≤ depthAfter (t.take k) 1 := hmin k (Nat.le_refl k)
  have hsplit : t.take (k + 1) = t.take k ++ (t.drop k).take 1 := List.take_add t k 1
  have hdrop : t.drop k = t.get ⟨k, hj2⟩ :: t.drop (k + 1) :=
    (List.get_cons_drop t ⟨k, hj2⟩).symm
  have htake1 : (t.drop k).take 1 = [t.get ⟨k, hj2⟩] := by rw [hdrop, List.take_succ_cons]; rfl
  have hstepk : depthStep (t.get ⟨k, hj2⟩) (depthAfter (t.take k) 1) = 0 := by
    have := hz
    rw [hsplit, depthAfter_append, htake1] at this
    exact this
  obtain ⟨hD, hclose⟩ := depthStep_zero_of_ge_one hdk hstepk
  have hshift : ∀ m, depthAfter (t.take m) 0 = depthAfter (t.take m) 1 - 1 := by
    intro m
    have h8 := depthAfter_add (t.take m) 0 1
    norm_num at h8
    omega
  refine ⟨hj1, hj2, fun _ => hclose, ?_, by rw [hshift]; omega, hz⟩
  apply prefixValid_of_nonneg
  intro m hm
  rw [List.length_take] at hm
  have hmk : m ≤ k := by omega
  rw [List.take_take, show m ⊓ k = m by omega, hshift]
  have h9 := hmin m hmk
  omega

/-! ### Parser step lemmas: one unfolding of `parseBetweenAux` per branch -/

theorem pb_done {chars : List Char} {fuel stop index : Nat}
    (h : ¬(index < stop ∧ index < chars.length)) :
    parseBetweenAux chars (fuel + 1) stop index = Except.ok [] := by
  rw [parseBetweenAux, dif_neg h]

theorem pb_plus {chars : List Char} {fuel stop index : Nat} (his : index < stop)
    (hil : index < chars.length) (hc : chars.get ⟨index, hil⟩ = '+') :
    parseBetweenAux chars (fuel + 1) stop index =
      (parseBetweenAux chars fuel stop (index + 1)).map
        (fun rest => Instruction.Increment 1 :: rest) := by
  rw [parseBetweenAux, dif_pos ⟨his, hil⟩]
  have h2 : chars[index] = '+' := hc
  simp [h2]

theorem pb_minus {chars : List Char} {fuel stop index : Nat} (his : index < stop)
    (hil : index < chars.length) (hc : chars.get ⟨index, hil⟩ = '-') :
    parseBetweenAux chars (fuel + 1) stop index =
      (parseBetweenAux chars fuel stop (index + 1)).map
        (fun rest => Instruction.Increment 255 :: rest) := by
  rw [parseBetweenAux, dif_pos ⟨his, hil⟩]
  have h2 : chars[index] = '-' := hc
  simp [h2]

theorem pb_right {chars : List Char} {fuel stop index : Nat} (his : index < stop)
    (hil : index < chars.length) (hc : chars.get ⟨index, hil⟩ = '>') :
    parseBetweenAux chars (fuel + 1) stop index =
      (parseBetweenAux chars fuel stop (index + 1)).map
        (fun rest => Instruction.PointerIncrement 1 :: rest) := by
  rw [parseBetweenAux, dif_pos ⟨his, hil⟩]
  have h2 : chars[index] = '>' := hc
  simp [h2]

theorem pb_left {chars : List Char} {fuel stop index : Nat} (his : index < stop)
    (hil : index < chars.length) (hc : chars.get ⟨index, hil⟩ = '<') :
    parseBetweenAux chars (fuel + 1) stop index =
      (parseBetweenAux chars fuel stop (index + 1)).map
        (fun rest => Instruction.PointerIncrement (-1) :: rest) := by
  rw [parseBetweenAux, dif_pos ⟨his, hil⟩]
  have h2 : chars[index] = '<' := hc
  simp [h2]

theorem pb_comma {chars : List Char} {fuel stop index : Nat} (his : index < stop)
    (hil : index < chars.length) (hc : chars.get ⟨index, hil⟩ = ',') :
    parseBetweenAux chars (fuel + 1) stop index =
      (parseBetweenAux chars fuel stop (index + 1)).map
        (fun rest => Instruction.Read :: rest) := by
  rw [parseBetweenAux, dif_pos ⟨his, hil⟩]
  have h2 : chars[index] = ',' := hc
  simp [h2]

theorem pb_dot {chars : List Char} {fuel stop index : Nat} (his : index < stop)
    (hil : index < chars.length) (hc : chars.get ⟨index, hil⟩ = '.') :
    parseBetweenAux chars (fuel + 1) stop index =
      (parseBetweenAux chars fuel stop (index + 1)).map
        (fun rest => Instruction.Write :: rest) := by
  rw [parseBetweenAux, dif_pos ⟨his, hil⟩]
  have h2 : chars[index] = '.' := hc
  simp [h2]

theorem pb_stray_close {chars : List Char} {fuel stop index : Nat} (his : index < stop)
    (hil : index < chars.length) (hc : chars.get ⟨index, hil⟩ = ']') :
    parseBetweenAux chars (fuel + 1) stop index =
      Except.error ("Unmatched ] at index " ++ toString index ++ ".") := by
  rw [parseBetweenAux, dif_pos ⟨his, hil⟩]
  have h2 : chars[index] = ']' := hc
  simp [h2]

theorem pb_comment {chars : List Char} {fuel stop index : Nat} (his : index < stop)
    (hil : index < chars.length) (h1 : chars.get ⟨index, hil⟩ ≠ '+')
    (h2 : chars.get ⟨index, hil⟩ ≠ '-') (h3 : chars.get ⟨index, hil⟩ ≠ '>')
    (h4 : chars.get ⟨index, hil⟩ ≠ '<') (h5 : chars.get ⟨index, hil⟩ ≠ ',')
    (h6 : chars.get ⟨index, hil⟩ ≠ '.') (h7 : chars.get ⟨index, hil⟩ ≠ '[')
    (h8 : chars.get ⟨index, hil⟩ ≠ ']') :
    parseBetweenAux chars (fuel + 1) stop index =
      parseBetweenAux chars fuel stop (index + 1) := by
  rw [parseBetweenAux, dif_pos ⟨his, hil⟩]
  have g1 : ¬chars[index] = '+' := h1
  have g2 : ¬chars[index] = '-' := h2
  have g3 : ¬chars[index] = '>' := h3
  have g4 : ¬chars[index] = '<' := h4
  have g5 : ¬chars[index] = ',' := h5
  have g6 : ¬chars[index] = '.' := h6
  have g7 : ¬chars[index] = '[' := h7
  have g8 : ¬chars[index] = ']' := h8
  simp [g1, g2, g3, g4, g5, g6, g7, g8]

theorem pb_open_none {chars : List Char} {fuel stop index : Nat} (his : index < stop)
    (hil : index < chars.length) (hc : chars.get ⟨index, hil⟩ = '[')
    (hfc : findClose chars index = none) :
    parseBetweenAux chars (fuel + 1) stop index =
      Except.error ("Could not find matching ] for [ at index " ++ toString index ++ ".") := by
  rw [parseBetweenAux, dif_pos ⟨his, hil⟩]
  have h2 : chars[index] = '[' := hc
  simp [h2, hfc]

theorem pb_open_some {chars : List Char} {fuel stop index j : Nat} (his : index < stop)
    (hil : index < chars.length) (hc : chars.get ⟨index, hil⟩ = '[')
    (hfc : findClose chars index = some j) :
    parseBetweenAux chars (fuel + 1) stop index =
      (match parseBetweenAux chars fuel j (index + 1) with
       | Except.error e => Except.error e
       | Except.ok body =>
         match parseBetweenAux chars fuel stop (j + 1) with
         | Except.error e => Except.error e
         | Except.ok rest => Except.ok (Instruction.Loop body :: rest)) := by
  rw [parseBetweenAux, dif_pos ⟨his, hil⟩]
  have h2 : chars[index] = '[' := hc
  simp [h2, hfc]


theorem findClose_eq {chars : List Char} {index : Nat} (hil : index < chars.length)
    (hc : chars.get ⟨index, hil⟩ = '[') :
    findClose chars index = findCloseAux (chars.drop (index + 1)) (index + 1) 1 := by
  unfold findClose
  rw [← List.get_cons_drop chars ⟨index, hil⟩, findCloseAux, hc]
  rw [show depthStep '[' 0 = 1 by unfold depthStep; simp]
  rw [if_neg (by omega)]

/-- Success of `parse_between` on a balanced segment, with a
`Set`/`MultiplyMove`-free result.  `fuel` dominates the remaining indices
(the invariant maintained from `parse`'s initial call). -/
theorem parseBetween_ok : ∀ (fuel : Nat) (chars : List Char) (stop index : Nat),
    chars.length + 1 ≤ index + fuel → 1 ≤ fuel → stop ≤ chars.length →
    prefixValid (seg chars index stop) 0 = true →
    depthAfter (seg chars index stop) 0 = 0 →
    ∃ out, parseBetweenAux chars fuel stop index = Except.ok out ∧
      noOptInstrs out = true := by
  intro fuel
  induction fuel with
  | zero => intro chars stop index _ hfpos _ _ _; omega
  | succ n ih =>
    intro chars stop index hf _ hs hv hd
    by_cases hguard : index < stop ∧ index < chars.length
    case neg => exact ⟨[], pb_done hguard, by simp [noOptInstrs]⟩
    obtain ⟨his, hil⟩ := hguard
    have hn1 : 1 ≤ n := by omega
    rw [seg_cons his hil] at hv hd
    by_cases h1 : chars.get ⟨index, hil⟩ = '+'
    · rw [pb_plus his hil h1]
      obtain ⟨hpv, hda⟩ := @step_other (chars.get ⟨index, hil⟩) (by rw [h1]; decide) (by rw [h1]; decide)
        (seg chars (index + 1) stop) 0
      rw [hpv] at hv
      rw [hda] at hd
      obtain ⟨out, hout, hno⟩ := ih chars stop (index + 1) (by omega) hn1 hs hv hd
      exact ⟨Instruction.Increment 1 :: out, by rw [hout]; rfl, by simp [noOptInstrs, hno]⟩
    by_cases h2 : chars.get ⟨index, hil⟩ = '-'
    · rw [pb_minus his hil h2]
      obtain ⟨hpv, hda⟩ := @step_other (chars.get ⟨index, hil⟩) (by rw [h2]; decide) (by rw [h2]; decide)
        (seg chars (index + 1) stop) 0
      rw [hpv] at hv
      rw [hda] at hd
      obtain ⟨out, hout, hno⟩ := ih chars stop (index + 1) (by omega) hn1 hs hv hd
      exact ⟨Instruction.Increment 255 :: out, by rw [hout]; rfl, by simp [noOptInstrs, hno]⟩
    by_cases h3 : chars.get ⟨index, hil⟩ = '>'
    · rw [pb_right his hil h3]
      obtain ⟨hpv, hda⟩ := @step_other (chars.get ⟨index, hil⟩) (by rw [h3]; decide) (by rw [h3]; decide)
        (seg chars (index + 1) stop) 0
      rw [hpv] at hv
      rw [hda] at hd
      obtain ⟨out, hout, hno⟩ := ih chars stop (index + 1) (by omega) hn1 hs hv hd
      exact ⟨Instruction.PointerIncrement 1 :: out, by rw [hout]; rfl,
        by simp [noOptInstrs, hno]⟩
    by_cases h4 : chars.get ⟨index, hil⟩ = '<'
    · rw [pb_left his hil h4]
      obtain ⟨hpv, hda⟩ := @step_other (chars.get ⟨index, hil⟩) (by rw [h4]; decide) (by rw [h4]; decide)
        (seg chars (index + 1) stop) 0
      rw [hpv] at hv
      rw [hda] at hd
      obtain ⟨out, hout, hno⟩ := ih chars stop (index + 1) (by omega) hn1 hs hv hd
      exact ⟨Instruction.PointerIncrement (-1) :: out, by rw [hout]; rfl,
        by simp [noOptInstrs, hno]⟩
    by_cases h5 : chars.get ⟨index, hil⟩ = ','
    · rw [pb_comma his hil h5]
      obtain ⟨hpv, hda⟩ := @step_other (chars.get ⟨index, hil⟩) (by rw [h5]; decide) (by rw [h5]; decide)
        (seg chars (index + 1) stop) 0
      rw [hpv] at hv
      rw [hda] at hd
      obtain ⟨out, hout, hno⟩ := ih chars stop (index + 1) (by omega) hn1 hs hv hd
      exact ⟨Instruction.Read :: out, by rw [hout]; rfl, by simp [noOptInstrs, hno]⟩
    by_cases h6 : chars.get ⟨index, hil⟩ = '.'
    · rw [pb_dot his hil h6]
      obtain ⟨hpv, hda⟩ := @step_other (chars.get ⟨index, hil⟩) (by rw [h6]; decide) (by rw [h6]; decide)
        (seg chars (index + 1) stop) 0
      rw [hpv] at hv
      rw [hda] at hd
      obtain ⟨out, hout, hno⟩ := ih chars stop (index + 1) (by omega) hn1 hs hv hd
      exact ⟨Instruction.Write :: out, by rw [hout]; rfl, by simp [noOptInstrs, hno]⟩
    by_cases h7 : chars.get ⟨index, hil⟩ = '['
    · rw [h7] at hv hd
      obtain ⟨hpv0, hda0⟩ := step_open (seg chars (index + 1) stop) 0
      rw [hpv0, show (0 : Int) + 1 = 1 from rfl] at hv
      rw [hda0, show (0 : Int) + 1 = 1 from rfl] at hd
      have htlen : (seg chars (index + 1) stop).length = stop - (index + 1) :=
        seg_length his hs
      obtain ⟨j, hj⟩ := findCloseAux_exists (seg chars (index + 1) stop) 1 (index + 1)
        (by omega) (le_of_eq hd)
      have hfc : findClose chars index = some j := by
        rw [findClose_eq hil h7, drop_eq_seg_append (his : index + 1 ≤ stop) hs]
        exact findCloseAux_append _ _ _ _ _ hj
      obtain ⟨hj1, hj2, hcc, hpvI, hdaI, hz1⟩ := close_analysis hj
      have hjlt : j < stop := by rw [htlen] at hj2; omega
      have hIseg : (seg chars (index + 1) stop).take (j - (index + 1)) =
          seg chars (index + 1) j := by
        rw [seg_take (by omega)]
        congr 1
        omega
      have hEseg : (seg chars (index + 1) stop).drop (j - (index + 1) + 1) =
          seg chars (j + 1) stop := by
        rw [seg_drop]
        congr 1
        omega
      have hsplitT :=
        (List.take_append_drop (j - (index + 1) + 1) (seg chars (index + 1) stop)).symm
      have hpvE : prefixValid (seg chars (j + 1) stop) 0 = true := by
        have hv2 := hv
        rw [hsplitT, prefixValid_append, Bool.and_eq_true] at hv2
        have h9 := hv2.2
        rw [hz1] at h9
        rw [← hEseg]
        exact h9
      have hdaE : depthAfter (seg chars (j + 1) stop) 0 = 0 := by
        have hd2 := hd
        rw [hsplitT, depthAfter_append, hz1] at hd2
        rw [← hEseg]
        exact hd2
      obtain ⟨body, hbody, hnob⟩ := ih chars j (index + 1) (by omega) hn1 (by omega)
        (by rw [← hIseg]; exact hpvI) (by rw [← hIseg]; exact hdaI)
      obtain ⟨rest2, hrest, hnor⟩ := ih chars stop (j + 1) (by omega) hn1 hs hpvE hdaE
      refine ⟨Instruction.Loop body :: rest2, ?_, ?_⟩
      · rw [pb_open_some his hil h7 hfc, hbody, hrest]
      · simp [noOptInstrs, hnob, hnor]
    by_cases h8 : chars.get ⟨index, hil⟩ = ']'
    · rw [h8] at hv
      rw [close_not_valid] at hv
      cases hv
    · rw [pb_comment his hil h1 h2 h3 h4 h5 h6 h7 h8]
      obtain ⟨hpv, hda⟩ := step_other h7 h8 (seg chars (index + 1) stop) 0
      rw [hpv] at hv
      rw [hda] at hd
      exact ih chars stop (index + 1) (by omega) hn1 hs hv hd


/-- C6: on every source whose bracket sequence is balanced, `parse`
succeeds; each of `+ - > < , .` maps to its instruction, `[ ... ]` becomes
`Loop` of the recursively parsed interior, non-BF characters produce no
instruction, and the output never contains `Set` or `MultiplyMove`
(`src/bfir.rs` lines 58-91). -/
theorem parse_balanced_ok :
    (∀ s : List Char, balanced s = true →
      ∃ out, parse s = Except.ok out ∧ noOptInstrs out = true) ∧
    parse ['+'] = Except.ok [Instruction.Increment 1] ∧
    parse ['-'] = Except.ok [Instruction.Increment 255] ∧
    parse ['>'] = Except.ok [Instruction.PointerIncrement 1] ∧
    parse ['<'] = Except.ok [Instruction.PointerIncrement (-1)] ∧
    parse [','] = Except.ok [Instruction.Read] ∧
    parse ['.'] = Except.ok [Instruction.Write] ∧
    parse ['[', '+', ']'] = Except.ok [Instruction.Loop [Instruction.Increment 1]] ∧
    parse ['a'] = Except.ok [] := by
  refine ⟨?_, rfl, rfl, rfl, rfl, rfl, rfl, rfl, rfl⟩
  intro s hb
  unfold balanced at hb
  rw [Bool.and_eq_true, decide_eq_true_iff] at hb
  unfold parse
  exact parseBetween_ok (s.length + 1) s s.length 0 (by omega) (by omega) (Nat.le_refl _)
    (by rw [seg_zero_length]; exact hb.1) (by rw [seg_zero_length]; exact hb.2)

/-- Witness for C6: the balanced source `+[-]x` parses successfully with a
`Set`/`MultiplyMove`-free result. -/
theorem parse_balanced_ok_witness :
    ∃ out, parse ['+', '[', '-', ']', 'x'] = Except.ok out ∧ noOptInstrs out = true :=
  parse_balanced_ok.1 ['+', '[', '-', ']', 'x'] (by decide)


/-! ### Error reporting lemmas (for C7) -/

theorem seg_nil {chars : List Char} {index stop : Nat}
    (h : stop ≤ index ∨ chars.length ≤ index) : seg chars index stop = [] := by
  unfold seg
  rcases h with h | h
  · rw [show stop - index = 0 by omega, List.take_zero]
  · rw [List.drop_eq_nil_of_le h]
    exact List.take_nil

theorem seg_to_end (chars : List Char) (index : Nat) :
    seg chars index chars.length = chars.drop index := by
  unfold seg
  apply List.take_of_length_le
  simp

theorem firstNeg_cons_neg {c : Char} {rest : List Char} {d : Int}
    (h : depthStep c d < 0) : firstNeg (c :: rest) d = some 0 := by
  rw [firstNeg, if_pos h]

theorem firstNeg_cons_nonneg {c : Char} {rest : List Char} {d : Int}
    (h : ¬depthStep c d < 0) :
    firstNeg (c :: rest) d = (firstNeg rest (depthStep c d)).map (· + 1) := by
  rw [firstNeg, if_neg h]

/-- When the depth profile goes strictly negative, the scan for the first
return to zero succeeds, strictly earlier. -/
theorem findCloseAux_of_firstNeg : ∀ (t : List Char) (d : Int) (idx k : Nat), 1 ≤ d →
    firstNeg t d = some k →
    ∃ kq, kq < k ∧ findCloseAux t idx d = some (idx + kq) := by
  intro t
  induction t with
  | nil => intro d idx k _ h; cases h
  | cons c rest ih =>
    intro d idx k hd h
    have hnn : ¬depthStep c d < 0 := by
      unfold depthStep
      split
      · omega
      · split <;> omega
    rw [firstNeg_cons_nonneg hnn, Option.map_eq_some'] at h
    obtain ⟨a, ha, rfl⟩ := h
    rw [findCloseAux]
    by_cases hz : depthStep c d = 0
    · exact ⟨0, by omega, by rw [if_pos hz, Nat.add_zero]⟩
    · obtain ⟨kq, hkq, hfc⟩ := ih (depthStep c d) (idx + 1) a (by omega) ha
      exact ⟨kq + 1, by omega, by rw [if_neg hz, hfc]; congr 1; omega⟩

/-- The stray-`]` error: when the depth counter of the segment goes
negative for the first time at relative position `k`, `parse_between`
reports `Unmatched ] at index (index + k)`. -/
theorem parseBetween_stray : ∀ (fuel : Nat) (chars : List Char) (stop index k : Nat),
    chars.length + 1 ≤ index + fuel → 1 ≤ fuel → stop ≤ chars.length →
    firstNeg (seg chars index stop) 0 = some k →
    parseBetweenAux chars fuel stop index =
      Except.error ("Unmatched ] at index " ++ toString (index + k) ++ ".") := by
  intro fuel
  induction fuel with
  | zero => intro chars stop index k _ hfpos _ _; omega
  | succ n ih =>
    intro chars stop index k hf _ hs hfn
    by_cases hguard : index < stop ∧ index < chars.length
    case neg =>
      rw [seg_nil (by omega)] at hfn
      cases hfn
    obtain ⟨his, hil⟩ := hguard
    have hn1 : 1 ≤ n := by omega
    rw [seg_cons his hil] at hfn
    by_cases h8 : chars.get ⟨index, hil⟩ = ']'
    · rw [h8] at hfn
      rw [firstNeg_cons_neg (by unfold depthStep; simp)] at hfn
      cases hfn
      rw [pb_stray_close his hil h8, Nat.add_zero]
    by_cases h7 : chars.get ⟨index, hil⟩ = '['
    · -- the loop head: its close exists strictly before the stray ]
      rw [h7] at hfn
      have hs1 : depthStep '[' 0 = 1 := by unfold depthStep; simp
      rw [firstNeg_cons_nonneg (by omega), Option.map_eq_some'] at hfn
      obtain ⟨a, ha, rfl⟩ := hfn
      rw [hs1] at ha
      obtain ⟨kq, hkq, hj⟩ :=
        findCloseAux_of_firstNeg (seg chars (index + 1) stop) 1 (index + 1) a
          (by omega) ha
      have htlen : (seg chars (index + 1) stop).length = stop - (index + 1) :=
        seg_length his hs
      have halen := firstNeg_lt_length _ _ _ ha
      have hfc : findClose chars index = some (index + 1 + kq) := by
        rw [findClose_eq hil h7, drop_eq_seg_append (his : index + 1 ≤ stop) hs]
        exact findCloseAux_append _ _ _ _ _ hj
      obtain ⟨hj1, hj2, hcc, hpvI, hdaI, hz1⟩ := close_analysis hj
      have hk : index + 1 + kq - (index + 1) = kq := by omega
      rw [hk] at hj2 hcc hpvI hdaI hz1
      have hjlt : index + 1 + kq < stop := by omega
      have hIseg : (seg chars (index + 1) stop).take kq =
          seg chars (index + 1) (index + 1 + kq) := by
        rw [seg_take (by omega)]
      obtain ⟨body, hbody, hnob⟩ := parseBetween_ok n chars (index + 1 + kq) (index + 1)
        (by omega) hn1 (by omega) (by rw [← hIseg]; exact hpvI) (by rw [← hIseg]; exact hdaI)
      -- the rest of the segment still contains the stray ]
      have hnone : firstNeg ((seg chars (index + 1) stop).take (kq + 1)) 1 = none := by
        apply firstNeg_none_of_nonneg
        intro m hm
        rw [List.length_take] at hm
        rw [List.take_take]
        obtain ⟨_, _, _, hmin⟩ := findCloseAux_spec _ 1 (index + 1) _ (by omega) hj
        rw [hk] at hmin
        by_cases hmk : m ≤ kq
        · rw [show m ⊓ (kq + 1) = m by omega]
          have := hmin m hmk
          omega
        · rw [show m ⊓ (kq + 1) = kq + 1 by omega]
          rw [hz1]
      have hsplitT :=
        (List.take_append_drop (kq + 1) (seg chars (index + 1) stop)).symm
      rw [hsplitT, firstNeg_append, hnone, hz1] at ha
      rw [List.length_take, show (kq + 1) ⊓ (seg chars (index + 1) stop).length = kq + 1
        by omega] at ha
      rw [Option.map_eq_some'] at ha
      obtain ⟨b, hb, hab⟩ := ha
      have hEseg : (seg chars (index + 1) stop).drop (kq + 1) =
          seg chars (index + 1 + kq + 1) stop := by
        rw [seg_drop, show index + 1 + (kq + 1) = index + 1 + kq + 1 by omega]
      rw [hEseg] at hb
      have herr := ih chars stop (index + 1 + kq + 1) b (by omega) hn1 hs hb
      rw [show index + (a + 1) = index + 1 + kq + 1 + b by omega]
      rw [pb_open_some his hil h7 hfc, hbody, herr]
    by_cases h1 : chars.get ⟨index, hil⟩ = '+'
    · rw [pb_plus his hil h1]
      rw [h1] at hfn
      rw [firstNeg_cons_nonneg (by unfold depthStep; simp), Option.map_eq_some'] at hfn
      obtain ⟨a, ha, rfl⟩ := hfn
      rw [show depthStep '+' 0 = 0 by unfold depthStep; simp] at ha
      rw [ih chars stop (index + 1) a (by omega) hn1 hs ha]
      rw [show index + (a + 1) = index + 1 + a by omega]
      rfl
    by_cases h2 : chars.get ⟨index, hil⟩ = '-'
    · rw [pb_minus his hil h2]
      rw [h2] at hfn
      rw [firstNeg_cons_nonneg (by unfold depthStep; simp), Option.map_eq_some'] at hfn
      obtain ⟨a, ha, rfl⟩ := hfn
      rw [show depthStep '-' 0 = 0 by unfold depthStep; simp] at ha
      rw [ih chars stop (index + 1) a (by omega) hn1 hs ha]
      rw [show index + (a + 1) = index + 1 + a by omega]
      rfl
    by_cases h3 : chars.get ⟨index, hil⟩ = '>'
    · rw [pb_right his hil h3]
      rw [h3] at hfn
      rw [firstNeg_cons_nonneg (by unfold depthStep; simp), Option.map_eq_some'] at hfn
      obtain ⟨a, ha, rfl⟩ := hfn
      rw [show depthStep '>' 0 = 0 by unfold depthStep; simp] at ha
      rw [ih chars stop (index + 1) a (by omega) hn1 hs ha]
      rw [show index + (a + 1) = index + 1 + a by omega]
      rfl
    by_cases h4 : chars.get ⟨index, hil⟩ = '<'
    · rw [pb_left his hil h4]
      rw [h4] at hfn
      rw [firstNeg_cons_nonneg (by unfold depthStep; simp), Option.map_eq_some'] at hfn
      obtain ⟨a, ha, rfl⟩ := hfn
      rw [show depthStep '<' 0 = 0 by unfold depthStep; simp] at ha
      rw [ih chars stop (index + 1) a (by omega) hn1 hs ha]
      rw [show index + (a + 1) = index + 1 + a by omega]
      rfl
    by_cases h5 : chars.get ⟨index, hil⟩ = ','
    · rw [pb_comma his hil h5]
      rw [h5] at hfn
      rw [firstNeg_cons_nonneg (by unfold depthStep; simp), Option.map_eq_some'] at hfn
      obtain ⟨a, ha, rfl⟩ := hfn
      rw [show depthStep ',' 0 = 0 by unfold depthStep; simp] at ha
      rw [ih chars stop (index + 1) a (by omega) hn1 hs ha]
      rw [show index + (a + 1) = index + 1 + a by omega]
      rfl
    by_cases h6 : chars.get ⟨index, hil⟩ = '.'
    · rw [pb_dot his hil h6]
      rw [h6] at hfn
      rw [firstNeg_cons_nonneg (by unfold depthStep; simp), Option.map_eq_some'] at hfn
      obtain ⟨a, ha, rfl⟩ := hfn
      rw [show depthStep '.' 0 = 0 by unfold depthStep; simp] at ha
      rw [ih chars stop (index + 1) a (by omega) hn1 hs ha]
      rw [show index + (a + 1) = index + 1 + a by omega]
      rfl
    · rw [pb_comment his hil h1 h2 h3 h4 h5 h6 h7 h8]
      have hstep : depthStep (chars.get ⟨index, hil⟩) 0 = 0 := by
        unfold depthStep
        rw [if_neg h7, if_neg h8]
      rw [firstNeg_cons_nonneg (by omega), Option.map_eq_some'] at hfn
      obtain ⟨a, ha, rfl⟩ := hfn
      rw [hstep] at ha
      rw [ih chars stop (index + 1) a (by omega) hn1 hs ha]
      rw [show index + (a + 1) = index + 1 + a by omega]


theorem fuf_nil {chars : List Char} {i : Nat} (h : chars.length ≤ i) :
    firstUnclosedFrom chars i = none := by
  unfold firstUnclosedFrom
  rw [show chars.length - i = 0 by omega]
  rfl

theorem fuf_cons_hit {chars : List Char} {i : Nat} (hil : i < chars.length)
    (h : isUnclosedOpen chars i = true) : firstUnclosedFrom chars i = some i := by
  unfold firstUnclosedFrom
  rw [show chars.length - i = (chars.length - (i + 1)) + 1 by omega]
  rw [show List.range' i (chars.length - (i + 1) + 1) =
    i :: List.range' (i + 1) (chars.length - (i + 1)) from rfl]
  rw [firstUnclosedInList, if_pos h]

theorem fuf_cons_skip {chars : List Char} {i : Nat} (hil : i < chars.length)
    (h : isUnclosedOpen chars i = false) :
    firstUnclosedFrom chars i = firstUnclosedFrom chars (i + 1) := by
  unfold firstUnclosedFrom
  rw [show chars.length - i = (chars.length - (i + 1)) + 1 by omega]
  rw [show List.range' i (chars.length - (i + 1) + 1) =
    i :: List.range' (i + 1) (chars.length - (i + 1)) from rfl]
  rw [firstUnclosedInList, if_neg (by rw [h]; exact Bool.false_ne_true)]

theorem fuf_congr : ∀ (m : Nat) (chars : List Char) (a : Nat),
    (∀ r, a ≤ r → r < a + m → isUnclosedOpen chars r = false) →
    firstUnclosedFrom chars a = firstUnclosedFrom chars (a + m) := by
  intro m
  induction m with
  | zero => intro chars a _; rfl
  | succ m' ih =>
    intro chars a hall
    by_cases hal : a < chars.length
    · rw [fuf_cons_skip hal (hall a (Nat.le_refl a) (by omega))]
      rw [ih chars (a + 1) (fun r h1 h2 => hall r (by omega) (by omega))]
      congr 1
      omega
    · rw [fuf_nil (by omega), fuf_nil (by omega)]

theorem isUnclosedOpen_false_of_some {chars : List Char} {r m : Nat}
    (h : findClose chars r = some m) : isUnclosedOpen chars r = false := by
  unfold isUnclosedOpen
  rw [h]
  simp

theorem isUnclosedOpen_false_of_ne {chars : List Char} {r : Nat} (hrl : r < chars.length)
    (h : chars.get ⟨r, hrl⟩ ≠ '[') : isUnclosedOpen chars r = false := by
  unfold isUnclosedOpen
  rw [List.getD_eq_get chars ' ' hrl]
  simp
  intro hcontr
  exact absurd hcontr h

/-- A `[` strictly inside a matched bracket pair has a matching close of
its own: the depth profile inside the pair returns to its level before the
pair closes. -/
theorem interior_open_closes {chars : List Char} {index j r : Nat}
    (hj : findCloseAux (chars.drop (index + 1)) (index + 1) 1 = some j)
    (hr1 : index < r) (hr2 : r < j) (hrl : r < chars.length)
    (hc : chars.get ⟨r, hrl⟩ = '[') :
    ∃ m2, findClose chars r = some m2 := by
  obtain ⟨hj1, hj2, hz1, hmin⟩ := findCloseAux_spec (chars.drop (index + 1)) 1 (index + 1) j
    (by omega) hj
  set t := chars.drop (index + 1) with ht
  set k := j - (index + 1) with hk
  set m := r - (index + 1) with hm
  have hmk : m + 1 ≤ k := by omega
  have hDm1 : 1 ≤ depthAfter (t.take (m + 1)) 1 := hmin (m + 1) hmk
  set A := t.take (k + 1) with hA
  have hAlen : A.length = k + 1 := by
    rw [hA, List.length_take]
    omega
  have hAtake : A.take (m + 1) = t.take (m + 1) := by
    rw [hA, List.take_take, show (m + 1) ⊓ (k + 1) = m + 1 by omega]
  have hAz : depthAfter A 1 = 0 := hz1
  have hAsplit : A = A.take (m + 1) ++ A.drop (m + 1) := (List.take_append_drop _ _).symm
  have hdropA : depthAfter (A.drop (m + 1)) (depthAfter (t.take (m + 1)) 1) = 0 := by
    rw [← hAtake, ← depthAfter_append, ← hAsplit]
    exact hAz
  have hneg : depthAfter (A.drop (m + 1)) 1 ≤ 0 := by
    have hadd := depthAfter_add (A.drop (m + 1)) 1 (depthAfter (t.take (m + 1)) 1 - 1)
    rw [show (1 : Int) + (depthAfter (t.take (m + 1)) 1 - 1) =
      depthAfter (t.take (m + 1)) 1 by omega] at hadd
    omega
  obtain ⟨j2, hj2c⟩ := findCloseAux_exists (A.drop (m + 1)) 1 (r + 1) (by omega) hneg
  have hdropr : chars.drop (r + 1) = A.drop (m + 1) ++ t.drop (k + 1) := by
    have e1 : chars.drop (r + 1) = t.drop (m + 1) := by
      rw [ht, List.drop_drop]
      congr 1
      omega
    have e2 : t.drop (m + 1) = A.drop (m + 1) ++ t.drop (k + 1) := by
      conv_lhs => rw [← List.take_append_drop (k + 1) t]
      rw [List.drop_append_of_le_length (by rw [List.length_take]; omega)]
    rw [e1, e2, hA]
  refine ⟨j2, ?_⟩
  rw [findClose_eq hrl hc, hdropr]
  exact findCloseAux_append _ _ _ _ _ hj2c


/-- The unclosed-`[` error: on a suffix with no stray `]` (`prefixValid`)
but non-zero final depth, `parse_between` reports the first `[` whose
`find_close` scan exhausts the source. -/
theorem parseBetween_unclosed : ∀ (fuel : Nat) (chars : List Char) (index : Nat),
    chars.length + 1 ≤ index + fuel → 1 ≤ fuel →
    prefixValid (chars.drop index) 0 = true →
    depthAfter (chars.drop index) 0 ≠ 0 →
    ∃ q, firstUnclosedFrom chars index = some q ∧
      parseBetweenAux chars fuel chars.length index =
        Except.error ("Could not find matching ] for [ at index " ++ toString q ++ ".") := by
  intro fuel
  induction fuel with
  | zero => intro chars index _ hfpos _ _; omega
  | succ n ih =>
    intro chars index hf _ hv hd
    by_cases hil : index < chars.length
    case neg =>
      rw [List.drop_eq_nil_of_le (by omega)] at hd
      exact absurd rfl hd
    have his : index < chars.length := hil
    have hn1 : 1 ≤ n := by omega
    have hdropc : chars.drop index = chars.get ⟨index, hil⟩ :: chars.drop (index + 1) :=
      (List.get_cons_drop chars ⟨index, hil⟩).symm
    rw [hdropc] at hv hd
    by_cases h8 : chars.get ⟨index, hil⟩ = ']'
    · rw [h8, close_not_valid] at hv
      cases hv
    by_cases h7 : chars.get ⟨index, hil⟩ = '['
    · rw [h7] at hv hd
      obtain ⟨hpv0, hda0⟩ := step_open (chars.drop (index + 1)) 0
      rw [hpv0, show (0 : Int) + 1 = 1 from rfl] at hv
      rw [hda0, show (0 : Int) + 1 = 1 from rfl] at hd
      cases hfcEq : findClose chars index with
      | none =>
        refine ⟨index, ?_, pb_open_none his hil h7 hfcEq⟩
        apply fuf_cons_hit hil
        unfold isUnclosedOpen
        rw [List.getD_eq_get chars ' ' hil, h7, hfcEq]
        rfl
      | some j =>
        have hj : findCloseAux (chars.drop (index + 1)) (index + 1) 1 = some j := by
          rw [← findClose_eq hil h7]
          exact hfcEq
        obtain ⟨hj1, hj2b, hcc, hpvI, hdaI, hz1⟩ := close_analysis hj
        have htl : (chars.drop (index + 1)).length = chars.length - (index + 1) := by
          simp
        have hjlt : j < chars.length := by rw [htl] at hj2b; omega
        have hIseg : (chars.drop (index + 1)).take (j - (index + 1)) =
            seg chars (index + 1) j := rfl
        obtain ⟨body, hbody, hnob⟩ := parseBetween_ok n chars j (index + 1)
          (by omega) hn1 (by omega) (by rw [← hIseg]; exact hpvI)
          (by rw [← hIseg]; exact hdaI)
        set k := j - (index + 1) with hk
        have hsplitT :=
          (List.take_append_drop (k + 1) (chars.drop (index + 1))).symm
        have hdropj : (chars.drop (index + 1)).drop (k + 1) = chars.drop (j + 1) := by
          rw [List.drop_drop]
          congr 1
          omega
        have hvE : prefixValid (chars.drop (j + 1)) 0 = true := by
          have hv2 := hv
          rw [hsplitT, prefixValid_append, Bool.and_eq_true] at hv2
          have h9 := hv2.2
          rw [hz1, hdropj] at h9
          exact h9
        have hdE : depthAfter (chars.drop (j + 1)) 0 ≠ 0 := by
          have hd2 := hd
          rw [hsplitT, depthAfter_append, hz1, hdropj] at hd2
          exact hd2
        obtain ⟨q, hq, herr⟩ := ih chars (j + 1) (by omega) hn1 hvE hdE
        refine ⟨q, ?_, ?_⟩
        · rw [show firstUnclosedFrom chars index = firstUnclosedFrom chars (j + 1) from ?_]
          · exact hq
          · rw [show j + 1 = index + (j + 1 - index) by omega]
            apply fuf_congr
            intro r hr1 hr2
            rw [show index + (j + 1 - index) = j + 1 by omega] at hr2
            rcases Nat.eq_or_lt_of_le hr1 with heq | hlt
            · exact isUnclosedOpen_false_of_some (heq ▸ hfcEq)
            · have hrlen : r < chars.length := by omega
              rcases Nat.lt_or_ge r j with hrj | hrj
              · by_cases hropen : chars.get ⟨r, hrlen⟩ = '['
                · obtain ⟨m2, hm2⟩ := interior_open_closes hj (by omega) hrj hrlen hropen
                  exact isUnclosedOpen_false_of_some hm2
                · exact isUnclosedOpen_false_of_ne hrlen hropen
              · have hrj2 : r = j := by omega
                apply isUnclosedOpen_false_of_ne hrlen
                subst hrj2
                have := hcc hj2b
                rw [show (chars.drop (index + 1)).get ⟨r - (index + 1), hj2b⟩ =
                  chars.get ⟨r, hrlen⟩ from ?_] at this
                · rw [this]; decide
                · have e := @List.getElem_drop _ chars (index + 1) (r - (index + 1)) hj2b
                  simp only [List.get_eq_getElem]
                  rw [e]
                  congr 1
                  omega
        · rw [pb_open_some his hil h7 hfcEq, hbody, herr]
    by_cases h1 : chars.get ⟨index, hil⟩ = '+'
    · obtain ⟨hpv, hda⟩ := @step_other (chars.get ⟨index, hil⟩) (by rw [h1]; decide)
        (by rw [h1]; decide) (chars.drop (index + 1)) 0
      rw [hpv] at hv
      rw [hda] at hd
      obtain ⟨q, hq, herr⟩ := ih chars (index + 1) (by omega) hn1 hv hd
      refine ⟨q, ?_, ?_⟩
      · rw [fuf_cons_skip hil (isUnclosedOpen_false_of_ne hil (by rw [h1]; decide))]
        exact hq
      · rw [pb_plus his hil h1, herr]
        rfl
    by_cases h2 : chars.get ⟨index, hil⟩ = '-'
    · obtain ⟨hpv, hda⟩ := @step_other (chars.get ⟨index, hil⟩) (by rw [h2]; decide)
        (by rw [h2]; decide) (chars.drop (index + 1)) 0
      rw [hpv] at hv
      rw [hda] at hd
      obtain ⟨q, hq, herr⟩ := ih chars (index + 1) (by omega) hn1 hv hd
      refine ⟨q, ?_, ?_⟩
      · rw [fuf_cons_skip hil (isUnclosedOpen_false_of_ne hil (by rw [h2]; decide))]
        exact hq
      · rw [pb_minus his hil h2, herr]
        rfl
    by_cases h3 : chars.get ⟨index, hil⟩ = '>'
    · obtain ⟨hpv, hda⟩ := @step_other (chars.get ⟨index, hil⟩) (by rw [h3]; decide)
        (by rw [h3]; decide) (chars.drop (index + 1)) 0
      rw [hpv] at hv
      rw [hda] at hd
      obtain ⟨q, hq, herr⟩ := ih chars (index + 1) (by omega) hn1 hv hd
      refine ⟨q, ?_, ?_⟩
      · rw [fuf_cons_skip hil (isUnclosedOpen_false_of_ne hil (by rw [h3]; decide))]
        exact hq
      · rw [pb_right his hil h3, herr]
        rfl
    by_cases h4 : chars.get ⟨index, hil⟩ = '<'
    · obtain ⟨hpv, hda⟩ := @step_other (chars.get ⟨index, hil⟩) (by rw [h4]; decide)
        (by rw [h4]; decide) (chars.drop (index + 1)) 0
      rw [hpv] at hv
      rw [hda] at hd
      obtain ⟨q, hq, herr⟩ := ih chars (index + 1) (by omega) hn1 hv hd
      refine ⟨q, ?_, ?_⟩
      · rw [fuf_cons_skip hil (isUnclosedOpen_false_of_ne hil (by rw [h4]; decide))]
        exact hq
      · rw [pb_left his hil h4, herr]
        rfl
    by_cases h5 : chars.get ⟨index, hil⟩ = ','
    · obtain ⟨hpv, hda⟩ := @step_other (chars.get ⟨index, hil⟩) (by rw [h5]; decide)
        (by rw [h5]; decide) (chars.drop (index + 1)) 0
      rw [hpv] at hv
      rw [hda] at hd
      obtain ⟨q, hq, herr⟩ := ih chars (index + 1) (by omega) hn1 hv hd
      refine ⟨q, ?_, ?_⟩
      · rw [fuf_cons_skip hil (isUnclosedOpen_false_of_ne hil (by rw [h5]; decide))]
        exact hq
      · rw [pb_comma his hil h5, herr]
        rfl
    by_cases h6 : chars.get ⟨index, hil⟩ = '.'
    · obtain ⟨hpv, hda⟩ := @step_other (chars.get ⟨index, hil⟩) (by rw [h6]; decide)
        (by rw [h6]; decide) (chars.drop (index + 1)) 0
      rw [hpv] at hv
      rw [hda] at hd
      obtain ⟨q, hq, herr⟩ := ih chars (index + 1) (by omega) hn1 hv hd
      refine ⟨q, ?_, ?_⟩
      · rw [fuf_cons_skip hil (isUnclosedOpen_false_of_ne hil (by rw [h6]; decide))]
        exact hq
      · rw [pb_dot his hil h6, herr]
        rfl
    · obtain ⟨hpv, hda⟩ := step_other h7 h8 (chars.drop (index + 1)) 0
      rw [hpv] at hv
      rw [hda] at hd
      obtain ⟨q, hq, herr⟩ := ih chars (index + 1) (by omega) hn1 hv hd
      refine ⟨q, ?_, ?_⟩
      · rw [fuf_cons_skip hil (isUnclosedOpen_false_of_ne hil h7)]
        exact hq
      · rw [pb_comment his hil h1 h2 h3 h4 h5 h6 h7 h8, herr]


/-- `firstNeg` finding nothing means every `]` saw a positive depth. -/
theorem prefixValid_of_firstNeg_none : ∀ (l : List Char) (d : Int), 0 ≤ d →
    firstNeg l d = none → prefixValid l d = true := by
  intro l
  induction l with
  | nil => intro d _ _; rfl
  | cons c rest ih =>
    intro d hd hfn
    rw [firstNeg] at hfn
    split at hfn
    · cases hfn
    · rename_i hnn
      rw [Option.map_eq_none'] at hfn
      rw [prefixValid]
      by_cases h1 : c = ']'
      · rw [if_pos h1]
        have hstep : depthStep c d = d - 1 := by unfold depthStep; rw [h1]; simp
        rw [hstep] at hfn hnn
        rw [Bool.and_eq_true, decide_eq_true_iff]
        exact ⟨by omega, ih (d - 1) (by omega) hfn⟩
      · by_cases h2 : c = '['
        · rw [if_neg h1, if_pos h2]
          have hstep : depthStep c d = d + 1 := by unfold depthStep; rw [h2]; simp
          rw [hstep] at hfn
          exact ih (d + 1) (by omega) hfn
        · rw [if_neg h1, if_neg h2]
          have hstep : depthStep c d = d := by unfold depthStep; rw [if_neg h2, if_neg h1]
          rw [hstep] at hfn
          exact ih d hd hfn

/-- C7: on a source with an unmatched bracket, `parse` fails.  A stray `]`
(the first character driving the bracket depth negative, at character
index `k`) yields `Unmatched ] at index k.`; otherwise (no stray `]` but
non-zero final depth) the first `[` whose forward depth-counting scan
exhausts the source, at character index `q`, yields
`Could not find matching ] for [ at index q.`.  Indices count characters
(the source is a `List Char` of Unicode scalar values, never bytes) and
count comment characters too. -/
theorem parse_unmatched_errors (s : List Char) :
    (∀ k, firstNeg s 0 = some k →
      parse s = Except.error ("Unmatched ] at index " ++ toString k ++ ".")) ∧
    (firstNeg s 0 = none → depthAfter s 0 ≠ 0 →
      ∃ q, firstUnclosedFrom s 0 = some q ∧
        parse s =
          Except.error ("Could not find matching ] for [ at index " ++ toString q ++ ".")) := by
  constructor
  · intro k hk
    unfold parse
    have h := parseBetween_stray (s.length + 1) s s.length 0 k (by omega) (by omega)
      (Nat.le_refl _) (by rw [seg_zero_length]; exact hk)
    rw [show 0 + k = k by omega] at h
    exact h
  · intro hnone hda
    unfold parse
    exact parseBetween_unclosed (s.length + 1) s 0 (by omega) (by omega)
      (by rw [List.drop_zero]; exact prefixValid_of_firstNeg_none s 0 (by omega) hnone)
      (by rw [List.drop_zero]; exact hda)

/-- Witness for C7: a stray `]` at index 0 and (after a comment character,
so the index counts it) an unclosed `[` at index 1. -/
theorem parse_unmatched_errors_witness :
    parse [']'] = Except.error ("Unmatched ] at index " ++ toString 0 ++ ".") ∧
    ∃ q, firstUnclosedFrom ['a', '['] 0 = some q ∧
      parse ['a', '['] =
        Except.error ("Could not find matching ] for [ at index " ++ toString q ++ ".") :=
  ⟨(parse_unmatched_errors [']']).1 0 (by decide),
   (parse_unmatched_errors ['a', '[']).2 (by decide) (by decide)⟩

end Bfc
